import Mathlib

/-!
Verification of the URL canonicalization/redirection processor of the
byfood-assignment repository (backend/internal/usecase/url_usecase.go).

The processor parses a URL with Go's net/url package, applies one of three
rewrites (canonical, redirection, all) and serializes the result.  The
embedding below therefore models, faithfully to the Go 1.21 standard
library sources, the parts of net/url exercised by the use case
(Parse, URL.String and their helpers), and on top of them the use-case
functions processCanonical, processRedirection, processAll and ProcessURL.

Modelling conventions:
  * Go strings are byte strings; they are embedded as `List Char` where each
    element stands for one byte (code point = byte value).  All inputs of
    interest are byte strings, and the well-formedness predicates used in
    universal theorems restrict characters to byte values where it matters.
  * strings.ToLower is modelled on ASCII letters (Go's Unicode table agrees
    with the ASCII mapping on ASCII letters, which is the range the spec's
    lower-casing claims are about).
  * Fallible Go functions returning (T, error) are modelled as `Option`;
    the use case only ever tests errors for non-nilness, except for its own
    four error messages, which are preserved verbatim.
  * The nil-pointer dereference that processAll would hit when re-parsing
    fails (it discards the error of url.Parse) is modelled by `Option`:
    `none` at the ProcessURL level means the Go program panics.
-/

namespace Byfood

abbrev GoStr := List Char

/-- ASCII lower-casing of one char, as Go's strings.ToLower acts on ASCII. -/
def lowerChar (c : Char) : Char :=
  if 65 ≤ c.toNat ∧ c.toNat ≤ 90 then Char.ofNat (c.toNat + 32) else c

/-- strings.ToLower (ASCII fragment). -/
def stringsToLower (s : GoStr) : GoStr := s.map lowerChar

/-- strings.Cut with a one-character separator: (before, after, found). -/
def stringsCut : GoStr → Char → GoStr × GoStr × Bool
  | [], _ => ([], [], false)
  | c :: cs, sep =>
    if c = sep then ([], cs, true)
    else
      let r := stringsCut cs sep
      (c :: r.1, r.2.1, r.2.2)

/-- strings.Index with a one-character pattern (None plays Go's -1). -/
def stringsIndex : GoStr → Char → Option Nat
  | [], _ => none
  | c :: cs, p =>
    if c = p then some 0
    else (stringsIndex cs p).map (· + 1)

/-- strings.LastIndex with a one-character pattern. -/
def stringsLastIndex : GoStr → Char → Option Nat
  | [], _ => none
  | c :: cs, p =>
    match stringsLastIndex cs p with
    | some i => some (i + 1)
    | none => if c = p then some 0 else none

/-- strings.Index with a string pattern (used for "%25" zone detection). -/
def stringsIndexSub : GoStr → GoStr → Option Nat
  | s, pat =>
    if pat.isPrefixOf s then some 0
    else match s with
      | [] => none
      | _ :: cs => (stringsIndexSub cs pat).map (· + 1)

/-- strings.HasSuffix with a one-character suffix. -/
def stringsHasSuffix1 (s : GoStr) (c : Char) : Bool :=
  s.getLast? = some c

/-- strings.TrimRight with a one-character cut set. -/
def stringsTrimRight (s : GoStr) (c : Char) : GoStr :=
  (s.reverse.dropWhile (fun d => d = c)).reverse

/-- Go byte-range test 'a' <= c && c <= 'z'. -/
def isLowerAlpha (c : Char) : Bool := decide (97 ≤ c.toNat ∧ c.toNat ≤ 122)

/-- Go byte-range test 'A' <= c && c <= 'Z'. -/
def isUpperAlpha (c : Char) : Bool := decide (65 ≤ c.toNat ∧ c.toNat ≤ 90)

/-- Go byte-range test '0' <= c && c <= '9'. -/
def isDigitChar (c : Char) : Bool := decide (48 ≤ c.toNat ∧ c.toNat ≤ 57)

/-- The apostrophe byte, written numerically. -/
def quoteChar : Char := Char.ofNat 39

/-- The double-quote byte, written numerically. -/
def dquoteChar : Char := Char.ofNat 34

/-- net/url encoding modes. -/
inductive Encoding where
  | encodePath
  | encodePathSegment
  | encodeHost
  | encodeZone
  | encodeUserPassword
  | encodeQueryComponent
  | encodeFragment
deriving DecidableEq

open Encoding

/-- net/url shouldEscape, ported clause for clause from Go 1.21. -/
def shouldEscape (c : Char) (mode : Encoding) : Bool :=
  -- §2.3 Unreserved characters (alphanumerics)
  if isLowerAlpha c ∨ isUpperAlpha c ∨ isDigitChar c then false
  else if (mode = encodeHost ∨ mode = encodeZone) ∧
      (c = '!' ∨ c = '$' ∨ c = '&' ∨ c = quoteChar ∨ c = '(' ∨ c = ')' ∨
       c = '*' ∨ c = '+' ∨ c = ',' ∨ c = ';' ∨ c = '=' ∨ c = ':' ∨
       c = '[' ∨ c = ']' ∨ c = '<' ∨ c = '>' ∨ c = dquoteChar) then false
  else if c = '-' ∨ c = '_' ∨ c = '.' ∨ c = '~' then false
  else if c = '$' ∨ c = '&' ∨ c = '+' ∨ c = ',' ∨ c = '/' ∨ c = ':' ∨
      c = ';' ∨ c = '=' ∨ c = '?' ∨ c = '@' then
    -- §2.2 Reserved characters; some may appear unescaped per section.
    match mode with
    | encodePath => c = '?'
    | encodePathSegment => c = '/' ∨ c = ';' ∨ c = ','
    | encodeUserPassword => c = '@' ∨ c = '/' ∨ c = '?' ∨ c = ':'
    | encodeQueryComponent => true
    | encodeFragment => false
    | _ => -- encodeHost/encodeZone never reach here for the list above
      if mode = encodeFragment ∧ (c = '!' ∨ c = '(' ∨ c = ')' ∨ c = '*')
      then false else true
  else if mode = encodeFragment ∧ (c = '!' ∨ c = '(' ∨ c = ')' ∨ c = '*')
  then false
  else true

/-- net/url ishex. -/
def ishex (c : Char) : Bool :=
  isDigitChar c ∨ decide (97 ≤ c.toNat ∧ c.toNat ≤ 102) ∨
    decide (65 ≤ c.toNat ∧ c.toNat ≤ 70)

/-- net/url unhex. -/
def unhex (c : Char) : Nat :=
  if isDigitChar c then c.toNat - 48
  else if decide (97 ≤ c.toNat ∧ c.toNat ≤ 102) then c.toNat - 97 + 10
  else if decide (65 ≤ c.toNat ∧ c.toNat ≤ 70) then c.toNat - 65 + 10
  else 0

/-- Digits of Go's upperhex table "0123456789ABCDEF". -/
def upperhexChar (n : Nat) : Char :=
  (("0123456789ABCDEF".toList).getD n '0')

/-- net/url unescape.  Go makes one validation pass and one building pass;
this fuses them into one structural recursion with identical semantics
(Go returns the input unchanged when nothing needs decoding, which equals
the rebuilt string).  `none` models a non-nil error. -/
def unescape : GoStr → Encoding → Option GoStr
  | [], _ => some []
  | c :: cs, mode =>
    if c = '%' then
      match cs with
      | a :: b :: rest =>
        if ¬ (ishex a ∧ ishex b) then none
        else if mode = encodeHost ∧ unhex a < 8 ∧ ¬ (a = '2' ∧ b = '5') then
          -- in hosts, %-encoding is only for non-ASCII bytes, plus %25
          none
        else if mode = encodeZone ∧ ¬ (a = '2' ∧ b = '5') ∧
            unhex a * 16 + unhex b ≠ 32 ∧
            shouldEscape (Char.ofNat (unhex a * 16 + unhex b)) encodeHost then
          none
        else
          (unescape rest mode).map fun t =>
            Char.ofNat (unhex a * 16 + unhex b) :: t
      | _ => none
    else if c = '+' then
      (unescape cs mode).map fun t =>
        (if mode = encodeQueryComponent then ' ' else '+') :: t
    else
      if (mode = encodeHost ∨ mode = encodeZone) ∧ c.toNat < 128 ∧
          shouldEscape c mode then
        none -- InvalidHostError
      else
        (unescape cs mode).map fun t => c :: t

/-- net/url escape (functionally: per-byte expansion; Go's copy loop
produces exactly this string). -/
def escape (s : GoStr) (mode : Encoding) : GoStr :=
  s.flatMap fun c =>
    if c = ' ' ∧ mode = encodeQueryComponent then ['+']
    else if shouldEscape c mode then
      ['%', upperhexChar (c.toNat / 16), upperhexChar (c.toNat % 16)]
    else [c]

/-- net/url validEncoded. -/
def validEncoded (s : GoStr) (mode : Encoding) : Bool :=
  s.all fun c =>
    if c = '!' ∨ c = '$' ∨ c = '&' ∨ c = quoteChar ∨ c = '(' ∨ c = ')' ∨
        c = '*' ∨ c = '+' ∨ c = ',' ∨ c = ';' ∨ c = '=' ∨ c = ':' ∨
        c = '@' then true
    else if c = '[' ∨ c = ']' then true
    else if c = '%' then true
    else ¬ shouldEscape c mode

/-- net/url validOptionalPort. -/
def validOptionalPort : GoStr → Bool
  | [] => true
  | c :: rest => c = ':' ∧ rest.all isDigitChar

/-- net/url validUserinfo. -/
def validUserinfo (s : GoStr) : Bool :=
  s.all fun r =>
    isUpperAlpha r ∨ isLowerAlpha r ∨ isDigitChar r ∨
    r = '-' ∨ r = '.' ∨ r = '_' ∨ r = ':' ∨ r = '~' ∨ r = '!' ∨ r = '$' ∨
    r = '&' ∨ r = quoteChar ∨ r = '(' ∨ r = ')' ∨ r = '*' ∨ r = '+' ∨
    r = ',' ∨ r = ';' ∨ r = '=' ∨ r = '%' ∨ r = '@'

/-- net/url stringContainsCTLByte. -/
def stringContainsCTLByte (s : GoStr) : Bool :=
  s.any fun b => decide (b.toNat < 32) ∨ b.toNat = 127

/-- net/url Userinfo. -/
structure Userinfo where
  username : GoStr
  password : GoStr
  passwordSet : Bool
deriving DecidableEq

/-- net/url User constructor. -/
def User (username : GoStr) : Userinfo := ⟨username, [], false⟩

/-- net/url UserPassword constructor. -/
def UserPassword (username password : GoStr) : Userinfo :=
  ⟨username, password, true⟩

/-- net/url Userinfo.String. -/
def userinfoString (u : Userinfo) : GoStr :=
  escape u.username encodeUserPassword ++
    (if u.passwordSet then ':' :: escape u.password encodeUserPassword else [])

/-- net/url URL.  The Opaque field is called `opq` here (its Go name is not a
legal identifier in this development); all other fields keep Go's names. -/
structure URL where
  scheme : GoStr
  opq : GoStr
  user : Option Userinfo
  host : GoStr
  path : GoStr
  rawPath : GoStr
  omitHost : Bool
  forceQuery : Bool
  rawQuery : GoStr
  fragment : GoStr
  rawFragment : GoStr
deriving DecidableEq

/-- The zero URL value. -/
def emptyURL : URL := ⟨[], [], none, [], [], [], false, false, [], [], []⟩

/-- net/url getScheme scan: the Go loop over bytes with index. -/
inductive SchemeScan where
  | noScheme
  | found (i : Nat)
  | schemeErr
deriving DecidableEq

/-- The loop body of getScheme. -/
def schemeScan : GoStr → Nat → SchemeScan
  | [], _ => .noScheme
  | c :: cs, i =>
    if isLowerAlpha c ∨ isUpperAlpha c then schemeScan cs (i + 1)
    else if isDigitChar c ∨ c = '+' ∨ c = '-' ∨ c = '.' then
      if i = 0 then .noScheme else schemeScan cs (i + 1)
    else if c = ':' then
      if i = 0 then .schemeErr else .found i
    else .noScheme

/-- net/url getScheme: returns (scheme, rest); `none` is the
"missing protocol scheme" error. -/
def getScheme (rawURL : GoStr) : Option (GoStr × GoStr) :=
  match schemeScan rawURL 0 with
  | .noScheme => some ([], rawURL)
  | .schemeErr => none
  | .found i => some (rawURL.take i, rawURL.drop (i + 1))

/-- net/url parseHost. -/
def parseHost (host : GoStr) : Option GoStr :=
  if host.head? = some '[' then
    -- IP-Literal per RFC 3986 / RFC 6874
    match stringsLastIndex host ']' with
    | none => none -- missing ']' in host
    | some i =>
      let colonPort := host.drop (i + 1)
      if ¬ validOptionalPort colonPort then none
      else
        match stringsIndexSub (host.take i) ("%25".toList) with
        | some zone =>
          (unescape (host.take zone) encodeHost).bind fun host1 =>
          (unescape ((host.take i).drop zone) encodeZone).bind fun host2 =>
          (unescape (host.drop i) encodeHost).map fun host3 =>
          host1 ++ host2 ++ host3
        | none => unescape host encodeHost
  else
    match stringsLastIndex host ':' with
    | some i =>
      if ¬ validOptionalPort (host.drop i) then none
      else unescape host encodeHost
    | none => unescape host encodeHost

/-- net/url parseAuthority: returns (user, host). -/
def parseAuthority (authority : GoStr) : Option (Option Userinfo × GoStr) :=
  match stringsLastIndex authority '@' with
  | none => (parseHost authority).map fun h => (none, h)
  | some i =>
    (parseHost (authority.drop (i + 1))).bind fun host =>
    let userinfo := authority.take i
    if ¬ validUserinfo userinfo then none
    else if ¬ userinfo.contains ':' then
      (unescape userinfo encodeUserPassword).map fun u => (some (User u), host)
    else
      let cut := stringsCut userinfo ':'
      (unescape cut.1 encodeUserPassword).bind fun username =>
      (unescape cut.2.1 encodeUserPassword).map fun password =>
      (some (UserPassword username password), host)

/-- net/url URL.setPath: returns (Path, RawPath). -/
def setPath (p : GoStr) : Option (GoStr × GoStr) :=
  (unescape p encodePath).map fun path =>
    if p = escape path encodePath then (path, []) else (path, p)

/-- net/url URL.setFragment applied to a parsed URL. -/
def setFragment (u : URL) (f : GoStr) : Option URL :=
  (unescape f encodeFragment).map fun frag =>
    if f = escape frag encodeFragment then
      { u with fragment := frag, rawFragment := [] }
    else
      { u with fragment := frag, rawFragment := f }

/-- net/url parse(rawURL, viaRequest=false) — the use case only reaches the
viaRequest=false path through url.Parse, so only that path is modelled.
This covers everything after the query split; see `parseRaw`. -/
def parseAfterQuery (u0 : URL) (rest : GoStr) : Option URL :=
  if (u0.scheme ≠ [] ∨ ¬ ("///".toList).isPrefixOf rest) ∧
      ("//".toList).isPrefixOf rest then
    let afterSlashes := rest.drop 2
    let split :=
      match stringsIndex afterSlashes '/' with
      | some i => (afterSlashes.take i, afterSlashes.drop i)
      | none => (afterSlashes, ([] : GoStr))
    (parseAuthority split.1).bind fun uh =>
    (setPath split.2).map fun pr =>
    { u0 with user := uh.1, host := uh.2, path := pr.1, rawPath := pr.2 }
  else if u0.scheme ≠ [] ∧ rest.head? = some '/' then
    (setPath rest).map fun pr =>
    { u0 with omitHost := true, path := pr.1, rawPath := pr.2 }
  else
    (setPath rest).map fun pr =>
    { u0 with path := pr.1, rawPath := pr.2 }

/-- net/url parse(rawURL, false), up to and including the query split and the
opaque/relative-path distinction. -/
def parseRaw (rawURL : GoStr) : Option URL :=
  if stringContainsCTLByte rawURL then none
  else if rawURL = "*".toList then some { emptyURL with path := "*".toList }
  else
    (getScheme rawURL).bind fun sr =>
    let scheme := stringsToLower sr.1
    let rest0 := sr.2
    let qsplit :=
      if stringsHasSuffix1 rest0 '?' ∧ ¬ (rest0.dropLast.contains '?') then
        (rest0.dropLast, ([] : GoStr), true)
      else
        let c := stringsCut rest0 '?'
        (c.1, c.2.1, false)
    let u0 : URL :=
      { emptyURL with
          scheme := scheme, forceQuery := qsplit.2.2, rawQuery := qsplit.2.1 }
    let rest := qsplit.1
    if rest.head? ≠ some '/' then
      if scheme ≠ [] then
        -- rootless path considered opaque per RFC 3986
        some { u0 with opq := rest }
      else
        -- viaRequest is false; reject relative paths whose first
        -- segment contains a colon
        if (stringsCut rest '/').1.contains ':' then none
        else parseAfterQuery u0 rest
    else parseAfterQuery u0 rest

/-- net/url URL.EscapedPath. -/
def escapedPath (u : URL) : GoStr :=
  if u.rawPath ≠ [] ∧ validEncoded u.rawPath encodePath ∧
      unescape u.rawPath encodePath = some u.path then
    u.rawPath
  else if u.path = "*".toList then "*".toList
  else escape u.path encodePath

/-- net/url URL.EscapedFragment. -/
def escapedFragment (u : URL) : GoStr :=
  if u.rawFragment ≠ [] ∧ validEncoded u.rawFragment encodeFragment ∧
      unescape u.rawFragment encodeFragment = some u.fragment then
    u.rawFragment
  else escape u.fragment encodeFragment

/-- The query and fragment tail shared by both branches of URL.String. -/
def queryFragPart (u : URL) : GoStr :=
  (if u.forceQuery ∨ u.rawQuery ≠ [] then '?' :: u.rawQuery else [])
  ++ (if u.fragment ≠ [] then '#' :: escapedFragment u else [])

/-- net/url URL.String, ported branch for branch from Go 1.21. -/
def urlString (u : URL) : GoStr :=
  let buf1 : GoStr := if u.scheme ≠ [] then u.scheme ++ [':'] else []
  if u.opq ≠ [] then
    buf1 ++ u.opq ++ queryFragPart u
  else
    let bufAuth : GoStr :=
      if u.scheme ≠ [] ∨ u.host ≠ [] ∨ u.user ≠ none then
        if u.omitHost ∧ u.host = [] ∧ u.user = none then []
        else
          (if u.host ≠ [] ∨ u.path ≠ [] ∨ u.user ≠ none then "//".toList else [])
          ++ (match u.user with
              | some ui => userinfoString ui ++ ['@']
              | none => [])
          ++ (if u.host ≠ [] then escape u.host encodeHost else [])
      else []
    let path := escapedPath u
    let slashFix : GoStr :=
      if path ≠ [] ∧ path.head? ≠ some '/' ∧ u.host ≠ [] then ['/'] else []
    let dotFix : GoStr :=
      if buf1 ++ bufAuth ++ slashFix = [] ∧ (stringsCut path '/').1.contains ':'
      then "./".toList else []
    buf1 ++ bufAuth ++ slashFix ++ dotFix ++ path ++ queryFragPart u

/-- net/url Parse: cut the fragment, parse the rest, set the fragment. -/
def Parse (rawURL : GoStr) : Option URL :=
  let cut := stringsCut rawURL '#'
  (parseRaw cut.1).bind fun url =>
  if cut.2.1 = [] then some url
  else setFragment url cut.2.1

/-! ### The use case (url_usecase.go) and its collaborators -/

/-- entities.URLRequest. -/
structure URLRequest where
  URL : GoStr
  Operation : GoStr
deriving DecidableEq

/-- entities.URLResponse. -/
structure URLResponse where
  ProcessedURL : GoStr
deriving DecidableEq

/-- repositories.URLRepository: the single-method interface, as the type of
its ProcessURL method.  Error results model non-nil errors. -/
def URLRepository := URLRequest → Except GoStr URLResponse

/-- repository.URLRepositoryImpl.ProcessURL (the placeholder implementation
from the repository layer; never consulted by the use case). -/
def URLRepositoryImplProcessURL : URLRepository :=
  fun request => .ok ⟨request.URL⟩

/-- usecase.URLUseCase. -/
structure URLUseCase where
  urlRepo : URLRepository

/-- usecase.NewURLUseCase. -/
def NewURLUseCase (urlRepo : URLRepository) : URLUseCase := ⟨urlRepo⟩

/-- processCanonical: clear RawQuery, trim trailing slashes from Path
(defaulting to "/"), serialize. -/
def URLUseCase.processCanonical (_uc : URLUseCase) (parsedURL : URL) : GoStr :=
  let u1 := { parsedURL with rawQuery := [] }
  let path0 := stringsTrimRight u1.path '/'
  let path1 := if path0 = [] then "/".toList else path0
  urlString { u1 with path := path1 }

/-- processRedirection: force Host to www.byfood.com, serialize, lower-case
the whole string. -/
def URLUseCase.processRedirection (_uc : URLUseCase) (parsedURL : URL) : GoStr :=
  stringsToLower (urlString { parsedURL with host := "www.byfood.com".toList })

/-- processAll: canonical, re-parse (error discarded in Go), redirection.
`none` models the nil-pointer panic that the discarded error would cause. -/
def URLUseCase.processAll (uc : URLUseCase) (parsedURL : URL) : Option GoStr :=
  let canonicalURL := uc.processCanonical parsedURL
  match Parse canonicalURL with
  | some canonicalParsedURL => some (uc.processRedirection canonicalParsedURL)
  | none => none

/-- ProcessURL: validation, operation dispatch.  The outer Option models
termination (none = panic inside processAll); the Except models the
(response, error) pair, whose error side always comes with a nil response. -/
def URLUseCase.ProcessURL (uc : URLUseCase) (request : URLRequest) :
    Option (Except GoStr URLResponse) :=
  if request.URL = [] then some (.error ("URL is required".toList))
  else if request.Operation = [] then
    some (.error ("operation is required".toList))
  else
    let validOperations :=
      ["canonical".toList, "redirection".toList, "all".toList]
    let isValidOperation := validOperations.any (fun op => request.Operation = op)
    if ¬ isValidOperation then some (.error ("invalid operation type".toList))
    else
      match Parse request.URL with
      | none => some (.error ("invalid URL format".toList))
      | some parsedURL =>
        if request.Operation = "canonical".toList then
          some (.ok ⟨uc.processCanonical parsedURL⟩)
        else if request.Operation = "redirection".toList then
          some (.ok ⟨uc.processRedirection parsedURL⟩)
        else
          (uc.processAll parsedURL).map fun s => .ok ⟨s⟩

/-- A concrete use case wired, like cmd/main.go does, to the repository
implementation; used to state closed facts about the program. -/
def theUseCase : URLUseCase := NewURLUseCase URLRepositoryImplProcessURL

/-! ### Vocabulary for the theorems: lower-case invariance, plain-shaped
URLs (URLs whose components consist of characters that net/url neither
decodes nor re-encodes), and the spec's trailing-slash rule. -/

/-- A string is entirely lower-case: ASCII lower-casing fixes it. -/
def allLowerStr (s : GoStr) : Bool := s.all fun c => lowerChar c = c

/-- Characters Go's getScheme accepts after the first position. -/
def schemeChar (c : Char) : Bool :=
  isLowerAlpha c ∨ isUpperAlpha c ∨ isDigitChar c ∨ c = '+' ∨ c = '-' ∨ c = '.'

/-- A well-formed scheme: non-empty, letter first, scheme characters after. -/
def schemeOK : GoStr → Bool
  | [] => false
  | c :: cs => (isLowerAlpha c ∨ isUpperAlpha c) ∧ cs.all schemeChar

/-- Plain registered-name characters (serialized verbatim by net/url). -/
def hostChar (c : Char) : Bool :=
  isLowerAlpha c ∨ isUpperAlpha c ∨ isDigitChar c ∨ c = '.' ∨ c = '-' ∨ c = '_'

/-- A plain host name. -/
def hostOK (host : GoStr) : Bool := host ≠ [] ∧ host.all hostChar

/-- An optional port: digits only (possibly empty, as Go accepts). -/
def portOK : Option GoStr → Bool
  | none => true
  | some p => p.all isDigitChar

/-- Plain path characters: exactly the ones escape(·, encodePath) keeps and
unescape(·, encodePath) returns unchanged. -/
def pathChar (c : Char) : Bool :=
  isLowerAlpha c ∨ isUpperAlpha c ∨ isDigitChar c ∨
  c = '-' ∨ c = '_' ∨ c = '.' ∨ c = '~' ∨ c = '/' ∨ c = '$' ∨ c = '&' ∨
  c = ',' ∨ c = ':' ∨ c = ';' ∨ c = '=' ∨ c = '@'

/-- A plain absolute-or-empty path. -/
def pathOK (path : GoStr) : Bool :=
  path = [] ∨ (path.head? = some '/' ∧ path.all pathChar)

/-- Raw query characters: anything but '#', control bytes and DEL (the query
is kept verbatim by net/url, so only the splitting characters matter). -/
def queryChar (c : Char) : Bool :=
  c ≠ '#' ∧ decide (32 ≤ c.toNat) ∧ c.toNat ≠ 127

/-- An optional non-empty raw query. -/
def queryOK : Option GoStr → Bool
  | none => true
  | some q => q ≠ [] ∧ q.all queryChar

/-- An optional query whose bytes are all ASCII.  Every other plain
component class is ASCII by construction; the raw query is the one place
net/url keeps arbitrary bytes, and strings.ToLower agrees with the ASCII
per-byte lower-casing exactly on ASCII strings (on non-ASCII input it
lower-cases rune-wise and replaces invalid UTF-8 bytes with U+FFFD). -/
def asciiQuery : Option GoStr → Bool
  | none => true
  | some q => q.all fun c => decide (c.toNat < 128)

/-- Plain fragment characters: kept verbatim by escape(·, encodeFragment)
and unescape(·, encodeFragment). -/
def fragChar (c : Char) : Bool :=
  isLowerAlpha c ∨ isUpperAlpha c ∨ isDigitChar c ∨
  c = '-' ∨ c = '_' ∨ c = '.' ∨ c = '~' ∨ c = '/' ∨ c = '$' ∨ c = '&' ∨
  c = ',' ∨ c = ':' ∨ c = ';' ∨ c = '=' ∨ c = '@' ∨ c = '?' ∨ c = '+' ∨
  c = '!' ∨ c = '(' ∨ c = ')' ∨ c = '*'

/-- An optional non-empty plain fragment. -/
def fragOK : Option GoStr → Bool
  | none => true
  | some f => f ≠ [] ∧ f.all fragChar

/-- The ":port" part of an authority. -/
def portPart : Option GoStr → GoStr
  | none => []
  | some p => ':' :: p

/-- An optional component introduced by a marker character. -/
def optPart (c : Char) : Option GoStr → GoStr
  | none => []
  | some s => c :: s

/-- scheme://host[:port]path[?query][#fragment] as a raw URL string. -/
def buildURLStr (sch host : GoStr) (port : Option GoStr) (path : GoStr)
    (q f : Option GoStr) : GoStr :=
  sch ++ [':'] ++ "//".toList ++ host ++ portPart port ++ path ++
    optPart '?' q ++ optPart '#' f

/-- The URL value that Parse produces on a plain-shaped input. -/
def shapedURL (sch host : GoStr) (port : Option GoStr) (path : GoStr)
    (q f : Option GoStr) : URL :=
  { scheme := stringsToLower sch, opq := [], user := none,
    host := host ++ portPart port, path := path, rawPath := [],
    omitHost := false, forceQuery := false,
    rawQuery := q.getD [], fragment := f.getD [], rawFragment := [] }

/-- Modelled from the spec: "Remove all trailing `/` characters from the
path; if the path becomes empty, set it to `/`." -/
def specTrimPath (path : GoStr) : GoStr :=
  let t := stringsTrimRight path '/'
  if t = [] then "/".toList else t

/-- The literal replacement host of the redirection operation. -/
def wwwByfood : GoStr := "www.byfood.com".toList

/-! ### Unfolding lemmas for ProcessURL -/

theorem processURL_canonical_eq (uc : URLUseCase) (s : GoStr) (u : URL)
    (hs : s ≠ []) (hp : Parse s = some u) :
    uc.ProcessURL ⟨s, "canonical".toList⟩ = some (.ok ⟨uc.processCanonical u⟩) := by
  unfold URLUseCase.ProcessURL
  simp [hs, hp]

theorem processURL_redirection_eq (uc : URLUseCase) (s : GoStr) (u : URL)
    (hs : s ≠ []) (hp : Parse s = some u) :
    uc.ProcessURL ⟨s, "redirection".toList⟩ =
      some (.ok ⟨uc.processRedirection u⟩) := by
  unfold URLUseCase.ProcessURL
  simp [hs, hp]

theorem processURL_all_eq (uc : URLUseCase) (s : GoStr) (u : URL)
    (hs : s ≠ []) (hp : Parse s = some u) :
    uc.ProcessURL ⟨s, "all".toList⟩ =
      (uc.processAll u).map fun t => .ok ⟨t⟩ := by
  unfold URLUseCase.ProcessURL
  simp [hs, hp]

theorem processURL_canonical_inv (uc : URLUseCase) (s : GoStr) (r : URLResponse)
    (h : uc.ProcessURL ⟨s, "canonical".toList⟩ = some (.ok r)) :
    ∃ u, s ≠ [] ∧ Parse s = some u ∧ r = ⟨uc.processCanonical u⟩ := by
  by_cases hs : s = []
  · subst hs; simp [URLUseCase.ProcessURL] at h
  · rcases hp : Parse s with _ | u
    · simp [URLUseCase.ProcessURL, hs, hp] at h
    · refine ⟨u, hs, rfl, ?_⟩
      rw [processURL_canonical_eq uc s u hs hp] at h
      injection h with h
      injection h with h
      exact h.symm

theorem processURL_redirection_inv (uc : URLUseCase) (s : GoStr) (r : URLResponse)
    (h : uc.ProcessURL ⟨s, "redirection".toList⟩ = some (.ok r)) :
    ∃ u, s ≠ [] ∧ Parse s = some u ∧ r = ⟨uc.processRedirection u⟩ := by
  by_cases hs : s = []
  · subst hs; simp [URLUseCase.ProcessURL] at h
  · rcases hp : Parse s with _ | u
    · simp [URLUseCase.ProcessURL, hs, hp] at h
    · refine ⟨u, hs, rfl, ?_⟩
      rw [processURL_redirection_eq uc s u hs hp] at h
      injection h with h
      injection h with h
      exact h.symm

/-! ### Claim theorems on concrete runs and the public contract -/

/-- C3: the "all" operation is canonical processing first, a re-parse of the
resulting string, then redirection processing of that result: whenever the
canonical run maps s to c and the redirection run maps c to r, the "all" run
maps s directly to r. -/
theorem C3_all_refines_canonical_then_redirection (s c r : GoStr)
    (h1 : theUseCase.ProcessURL ⟨s, "canonical".toList⟩ = some (.ok ⟨c⟩))
    (h2 : theUseCase.ProcessURL ⟨c, "redirection".toList⟩ = some (.ok ⟨r⟩)) :
    theUseCase.ProcessURL ⟨s, "all".toList⟩ = some (.ok ⟨r⟩) := by
  obtain ⟨u, hs, hp, hc⟩ := processURL_canonical_inv _ _ _ h1
  obtain ⟨u2, hc2, hp2, hr⟩ := processURL_redirection_inv _ _ _ h2
  have hcc : theUseCase.processCanonical u = c := congrArg URLResponse.ProcessedURL hc.symm
  have hrr : theUseCase.processRedirection u2 = r := congrArg URLResponse.ProcessedURL hr.symm
  rw [processURL_all_eq theUseCase s u hs hp]
  have hall : theUseCase.processAll u =
      some (theUseCase.processRedirection u2) := by
    simp only [URLUseCase.processAll, hcc, hp2]
  rw [hall, hrr]
  rfl

/-- C3 witness: the spec's own example, run through the composition: the
canonical result of https://BYFOOD.com/food-EXPeriences?query=abc/ fed to
redirection gives the "all" output https://www.byfood.com/food-experiences. -/
theorem C3_witness :
    theUseCase.ProcessURL
        ⟨"https://BYFOOD.com/food-EXPeriences?query=abc/".toList, "all".toList⟩ =
      some (.ok ⟨"https://www.byfood.com/food-experiences".toList⟩) :=
  C3_all_refines_canonical_then_redirection
    ("https://BYFOOD.com/food-EXPeriences?query=abc/".toList)
    ("https://BYFOOD.com/food-EXPeriences".toList)
    ("https://www.byfood.com/food-experiences".toList)
    (by rfl) (by rfl)

/-- C6: error behaviour of ProcessURL: empty url and empty operation are
rejected first (with their exact messages, before any parse), an operation
outside {canonical, redirection, all} is rejected next, a parse failure is
reported as "invalid URL format", and an error is returned in exactly
those four situations. -/
theorem C6_error_characterization (request : URLRequest) :
    (request.URL = [] →
      theUseCase.ProcessURL request = some (.error ("URL is required".toList))) ∧
    (request.URL ≠ [] → request.Operation = [] →
      theUseCase.ProcessURL request =
        some (.error ("operation is required".toList))) ∧
    (request.URL ≠ [] → request.Operation ≠ [] →
      request.Operation ≠ "canonical".toList →
      request.Operation ≠ "redirection".toList →
      request.Operation ≠ "all".toList →
      theUseCase.ProcessURL request =
        some (.error ("invalid operation type".toList))) ∧
    (request.URL ≠ [] →
      (request.Operation = "canonical".toList ∨
        request.Operation = "redirection".toList ∨
        request.Operation = "all".toList) →
      Parse request.URL = none →
      theUseCase.ProcessURL request =
        some (.error ("invalid URL format".toList))) ∧
    ((∃ msg, theUseCase.ProcessURL request = some (.error msg)) ↔
      (request.URL = [] ∨ request.Operation = [] ∨
        (request.Operation ≠ "canonical".toList ∧
          request.Operation ≠ "redirection".toList ∧
          request.Operation ≠ "all".toList) ∨
        Parse request.URL = none)) := by
  rcases request with ⟨url, op⟩
  dsimp only
  refine ⟨?_, ?_, ?_, ?_, ?_, ?_⟩
  · intro hu
    subst hu
    rfl
  · intro hu ho
    subst ho
    simp [URLUseCase.ProcessURL, hu]
  · intro hu ho h1 h2 h3
    simp only [ne_eq, String.toList] at h1 h2 h3
    simp [URLUseCase.ProcessURL, hu, ho, h1, h2, h3]
  · intro hu hval hp
    rcases hval with h | h | h <;> subst h <;>
      simp [URLUseCase.ProcessURL, hu, hp]
  · rintro ⟨msg, hmsg⟩
    by_cases hu : url = []
    · exact Or.inl hu
    by_cases ho : op = []
    · exact Or.inr (Or.inl ho)
    by_cases hval : op = "canonical".toList ∨ op = "redirection".toList ∨
        op = "all".toList
    · refine Or.inr (Or.inr (Or.inr ?_))
      rcases hp : Parse url with _ | u
      · rfl
      · exfalso
        rcases hval with h | h | h <;> subst h
        · rw [processURL_canonical_eq theUseCase url u hu hp] at hmsg
          simp at hmsg
        · rw [processURL_redirection_eq theUseCase url u hu hp] at hmsg
          simp at hmsg
        · rw [processURL_all_eq theUseCase url u hu hp] at hmsg
          rcases hall : theUseCase.processAll u with _ | t <;>
            rw [hall] at hmsg <;> simp at hmsg
    · push_neg at hval
      exact Or.inr (Or.inr (Or.inl hval))
  · rintro (hu | ho | ⟨h1, h2, h3⟩ | hp)
    · subst hu
      exact ⟨"URL is required".toList, rfl⟩
    · by_cases hu : url = []
      · subst hu
        exact ⟨"URL is required".toList, rfl⟩
      · subst ho
        exact ⟨"operation is required".toList, by
          simp [URLUseCase.ProcessURL, hu]⟩
    · by_cases hu : url = []
      · subst hu
        exact ⟨"URL is required".toList, rfl⟩
      by_cases ho : op = []
      · subst ho
        exact ⟨"operation is required".toList, by
          simp [URLUseCase.ProcessURL, hu]⟩
      · simp only [ne_eq, String.toList] at h1 h2 h3
        exact ⟨"invalid operation type".toList, by
          simp [URLUseCase.ProcessURL, hu, ho, h1, h2, h3]⟩
    · by_cases hu : url = []
      · subst hu
        exact ⟨"URL is required".toList, rfl⟩
      by_cases ho : op = []
      · subst ho
        exact ⟨"operation is required".toList, by
          simp [URLUseCase.ProcessURL, hu]⟩
      by_cases hval : op = "canonical".toList ∨ op = "redirection".toList ∨
          op = "all".toList
      · refine ⟨"invalid URL format".toList, ?_⟩
        rcases hval with h | h | h <;> subst h <;>
          simp [URLUseCase.ProcessURL, hu, hp]
      · push_neg at hval
        obtain ⟨h1, h2, h3⟩ := hval
        simp only [ne_eq, String.toList] at h1 h2 h3
        exact ⟨"invalid operation type".toList, by
          simp [URLUseCase.ProcessURL, hu, ho, h1, h2, h3]⟩

/-- C6 witness: the spec's malformed example ://invalid-url with a valid
operation is rejected as "invalid URL format". -/
theorem C6_witness :
    theUseCase.ProcessURL ⟨"://invalid-url".toList, "canonical".toList⟩ =
      some (.error ("invalid URL format".toList)) :=
  (C6_error_characterization ⟨"://invalid-url".toList, "canonical".toList⟩).2.2.2.1
    (by decide) (Or.inl rfl) (by rfl)

/-- C8: ProcessURL is a pure mapping of (url, operation): its result does not
depend on the injected URLRepository, which is never consulted — two use
cases over arbitrary distinct repositories agree on every request. -/
theorem C8_independent_of_repository :
    ∀ (repo1 repo2 : URLRepository) (request : URLRequest),
      (NewURLUseCase repo1).ProcessURL request =
        (NewURLUseCase repo2).ProcessURL request := by
  intro repo1 repo2 request
  rfl

/-- C10: a bare relative string such as not-a-url is not rejected: url.Parse
only fails on structural errors (such as a leading ://), so canonical
processing succeeds and returns a transformed string. -/
theorem C10_relative_strings_accepted :
    theUseCase.ProcessURL ⟨"not-a-url".toList, "canonical".toList⟩ =
      some (.ok ⟨"not-a-url".toList⟩) ∧
    (Parse ("not-a-url".toList)).isSome = true ∧
    Parse ("://invalid-url".toList) = none := by
  exact ⟨by rfl, by rfl, by rfl⟩

/-! ### Counterexamples -/

/-- C1 counterexample: canonical processing does not preserve the scheme
exactly as given (url.Parse lower-cases it: HTTPS://h/b/ becomes
https://h/b), and does not preserve path content beyond casing (characters
needing escaping are re-encoded: https://h/b<c/ becomes https://h/b%3Cc). -/
theorem C1_counterexample :
    theUseCase.ProcessURL ⟨"HTTPS://h/b/".toList, "canonical".toList⟩ =
      some (.ok ⟨"https://h/b".toList⟩) ∧
    ("https://h/b".toList : GoStr) ≠ "HTTPS://h/b".toList ∧
    theUseCase.ProcessURL ⟨"https://h/b<c/".toList, "canonical".toList⟩ =
      some (.ok ⟨"https://h/b%3Cc".toList⟩) ∧
    ("https://h/b%3Cc".toList : GoStr) ≠ "https://h/b<c".toList := by
  exact ⟨by rfl, by decide, by rfl, by decide⟩

/-- C2 counterexample: for an opaque URL (rootless path after the scheme,
e.g. mailto:), URL.String emits the opaque part and ignores the substituted
Host entirely, so the redirection output does not contain www.byfood.com. -/
theorem C2_counterexample :
    theUseCase.ProcessURL
        ⟨"mailto:Foo@Example.COM".toList, "redirection".toList⟩ =
      some (.ok ⟨"mailto:foo@example.com".toList⟩) ∧
    stringsIndexSub ("mailto:foo@example.com".toList) wwwByfood = none := by
  exact ⟨by rfl, by rfl⟩

/-- C4 counterexample: a canonical output containing two question marks: the
input https://h/b?#c?d has an empty-but-present query (ForceQuery), whose
bare marker survives RawQuery clearing, and a fragment containing a literal
question mark, which net/url keeps unescaped in fragments. -/
theorem C4_counterexample :
    theUseCase.ProcessURL ⟨"https://h/b?#c?d".toList, "canonical".toList⟩ =
      some (.ok ⟨"https://h/b?#c?d".toList⟩) ∧
    ("https://h/b?#c?d".toList).contains '?' = true := by
  exact ⟨by rfl, by rfl⟩

/-- C5 counterexample: redirection changes more than host and letter case:
the fragment c<d is re-encoded to c%3cd (percent-escaping introduced by
re-serialization, then lower-cased), so fragment content is not preserved
modulo lower-casing. -/
theorem C5_counterexample :
    theUseCase.ProcessURL ⟨"https://h/b#c<d".toList, "redirection".toList⟩ =
      some (.ok ⟨"https://www.byfood.com/b#c%3cd".toList⟩) ∧
    ("https://www.byfood.com/b#c%3cd".toList : GoStr) ≠
      "https://www.byfood.com/b#c<d".toList := by
  exact ⟨by rfl, by decide⟩

/-- C7 counterexample: canonical and all are not idempotent.  For
a:/%2Fx/ the canonical output a://x re-parses with host x instead of an
omitted host and empty path, so a second canonical run appends a slash;
the corresponding all outputs differ the same way. -/
theorem C7_counterexample :
    theUseCase.ProcessURL ⟨"a:/%2Fx/".toList, "canonical".toList⟩ =
      some (.ok ⟨"a://x".toList⟩) ∧
    theUseCase.ProcessURL ⟨"a://x".toList, "canonical".toList⟩ =
      some (.ok ⟨"a://x/".toList⟩) ∧
    ("a://x".toList : GoStr) ≠ "a://x/".toList ∧
    theUseCase.ProcessURL ⟨"a:/%2Fx/".toList, "all".toList⟩ =
      some (.ok ⟨"a://www.byfood.com".toList⟩) ∧
    theUseCase.ProcessURL ⟨"a://www.byfood.com".toList, "all".toList⟩ =
      some (.ok ⟨"a://www.byfood.com/".toList⟩) ∧
    ("a://www.byfood.com".toList : GoStr) ≠ "a://www.byfood.com/".toList := by
  refine ⟨by rfl, by rfl, by decide, ?_, ?_, by decide⟩
  · have hp : Parse ("a:/%2Fx/".toList) =
        some ⟨"a".toList, [], none, [], "//x/".toList, "/%2Fx/".toList,
          true, false, [], [], []⟩ := by rfl
    rw [processURL_all_eq theUseCase _ _ (by decide) hp]
    have hall : theUseCase.processAll
        ⟨"a".toList, [], none, [], "//x/".toList, "/%2Fx/".toList,
          true, false, [], [], []⟩ = some ("a://www.byfood.com".toList) := by rfl
    rw [hall]
    rfl
  · have hp : Parse ("a://www.byfood.com".toList) =
        some ⟨"a".toList, [], none, "www.byfood.com".toList, [], [],
          false, false, [], [], []⟩ := by rfl
    rw [processURL_all_eq theUseCase _ _ (by decide) hp]
    have hall : theUseCase.processAll
        ⟨"a".toList, [], none, "www.byfood.com".toList, [], [],
          false, false, [], [], []⟩ = some ("a://www.byfood.com/".toList) := by
      rfl
    rw [hall]
    rfl

/-- C9 counterexample: the input x://[a%25zÀ] (an IPv6-zone host containing
the non-ASCII byte 0xC0) is accepted by url.Parse, its canonical output is
x://[a%25z%C0]/, and re-parsing that string fails (zone identifiers may not
percent-encode non-ASCII bytes), so processAll dereferences nil: the "all"
run panics instead of returning. -/
theorem C9_counterexample :
    Parse ("x://[a%25zÀ]".toList) =
      some ⟨"x".toList, [], none, "[a%zÀ]".toList, [], [], false, false,
        [], [], []⟩ ∧
    (Parse ("x://[a%25zÀ]".toList)).map (theUseCase.processCanonical ·) =
      some ("x://[a%25z%C0]/".toList) ∧
    Parse ("x://[a%25z%C0]/".toList) = none ∧
    theUseCase.ProcessURL ⟨"x://[a%25zÀ]".toList, "all".toList⟩ = none := by
  refine ⟨by rfl, by rfl, by rfl, ?_⟩
  have hp : Parse ("x://[a%25zÀ]".toList) =
      some ⟨"x".toList, [], none, "[a%zÀ]".toList, [], [], false, false,
        [], [], []⟩ := by rfl
  rw [processURL_all_eq theUseCase _ _ (by decide) hp]
  have hall : theUseCase.processAll
      ⟨"x".toList, [], none, "[a%zÀ]".toList, [], [], false, false,
        [], [], []⟩ = none := by rfl
  rw [hall]
  rfl

/-! ### Character-class lemmas -/

theorem lowerChar_toNat_upper (c : Char) (h : 65 ≤ c.toNat ∧ c.toNat ≤ 90) :
    (lowerChar c).toNat = c.toNat + 32 := by
  unfold lowerChar
  rw [if_pos h]
  unfold Char.ofNat
  rw [dif_pos (Or.inl (by omega))]
  rfl

theorem lowerChar_eq_self_of_not_upper (c : Char)
    (h : ¬ (65 ≤ c.toNat ∧ c.toNat ≤ 90)) : lowerChar c = c := by
  unfold lowerChar
  rw [if_neg h]

theorem lowerChar_idem (c : Char) : lowerChar (lowerChar c) = lowerChar c := by
  by_cases h : 65 ≤ c.toNat ∧ c.toNat ≤ 90
  · have ht := lowerChar_toNat_upper c h
    apply lowerChar_eq_self_of_not_upper
    omega
  · rw [lowerChar_eq_self_of_not_upper c h]
    exact lowerChar_eq_self_of_not_upper c h

theorem stringsToLower_idem (s : GoStr) :
    stringsToLower (stringsToLower s) = stringsToLower s := by
  unfold stringsToLower
  rw [List.map_map]
  exact List.map_congr_left fun c _ => lowerChar_idem c

theorem allLowerStr_toLower (s : GoStr) :
    allLowerStr (stringsToLower s) = true := by
  rw [allLowerStr, List.all_eq_true]
  intro c hc
  rw [stringsToLower, List.mem_map] at hc
  obtain ⟨d, _, rfl⟩ := hc
  exact decide_eq_true (lowerChar_idem d)

theorem stringsToLower_append (a b : GoStr) :
    stringsToLower (a ++ b) = stringsToLower a ++ stringsToLower b :=
  List.map_append lowerChar a b

theorem stringsToLower_cons (c : Char) (s : GoStr) :
    stringsToLower (c :: s) = lowerChar c :: stringsToLower s := rfl

theorem stringsToLower_ne_nil (s : GoStr) (h : s ≠ []) :
    stringsToLower s ≠ [] := by
  cases s
  · exact absurd rfl h
  · exact List.cons_ne_nil _ _

theorem lowerChar_ne_of_notletter (c : Char) (d : Char)
    (hd1 : ¬ (97 ≤ d.toNat ∧ d.toNat ≤ 122)) (hd2 : c ≠ d) :
    lowerChar c ≠ d := by
  intro he
  by_cases h : 65 ≤ c.toNat ∧ c.toNat ≤ 90
  · have := lowerChar_toNat_upper c h
    rw [he] at this
    omega
  · rw [lowerChar_eq_self_of_not_upper c h] at he
    exact hd2 he

theorem isLowerAlpha_lowerChar (c : Char)
    (h : isLowerAlpha c = true ∨ isUpperAlpha c = true) :
    isLowerAlpha (lowerChar c) = true := by
  rcases h with h | h
  · rw [isLowerAlpha, decide_eq_true_iff] at h
    rw [lowerChar_eq_self_of_not_upper c (by omega)]
    rw [isLowerAlpha, decide_eq_true_iff]
    omega
  · rw [isUpperAlpha, decide_eq_true_iff] at h
    have := lowerChar_toNat_upper c (by omega)
    rw [isLowerAlpha, decide_eq_true_iff]
    omega

theorem shouldEscape_of_alnum (c : Char) (mode : Encoding)
    (h : isLowerAlpha c = true ∨ isUpperAlpha c = true ∨ isDigitChar c = true) :
    shouldEscape c mode = false := by
  unfold shouldEscape
  rw [if_pos h]

theorem hostChar_not_shouldEscape (c : Char) (h : hostChar c = true) :
    shouldEscape c encodeHost = false := by
  rw [hostChar] at h
  simp only [Bool.or_eq_true, decide_eq_true_eq] at h
  rcases h with h | h | h | h | h | h <;>
    first
      | exact shouldEscape_of_alnum c _ (Or.inl h)
      | exact shouldEscape_of_alnum c _ (Or.inr (Or.inl h))
      | exact shouldEscape_of_alnum c _ (Or.inr (Or.inr h))
      | (subst h; decide)

theorem pathChar_not_shouldEscape (c : Char) (h : pathChar c = true) :
    shouldEscape c encodePath = false := by
  rw [pathChar] at h
  simp only [Bool.or_eq_true, decide_eq_true_eq] at h
  rcases h with h | h | h | h | h | h | h | h | h | h | h | h | h | h | h <;>
    first
      | exact shouldEscape_of_alnum c _ (Or.inl h)
      | exact shouldEscape_of_alnum c _ (Or.inr (Or.inl h))
      | exact shouldEscape_of_alnum c _ (Or.inr (Or.inr h))
      | (subst h; decide)

theorem fragChar_not_shouldEscape (c : Char) (h : fragChar c = true) :
    shouldEscape c encodeFragment = false := by
  rw [fragChar] at h
  simp only [Bool.or_eq_true, decide_eq_true_eq] at h
  rcases h with h | h | h | h | h | h | h | h | h | h | h | h | h | h | h |
    h | h | h | h | h | h <;>
    first
      | exact shouldEscape_of_alnum c _ (Or.inl h)
      | exact shouldEscape_of_alnum c _ (Or.inr (Or.inl h))
      | exact shouldEscape_of_alnum c _ (Or.inr (Or.inr h))
      | (subst h; decide)

/-! ### escape and unescape act as the identity on plain characters -/

theorem escape_eq_self (s : GoStr) (mode : Encoding)
    (hm : mode ≠ encodeQueryComponent)
    (h : ∀ c ∈ s, shouldEscape c mode = false) :
    escape s mode = s := by
  induction s with
  | nil => rfl
  | cons c cs ih =>
    unfold escape
    rw [List.flatMap_cons]
    rw [if_neg (by rintro ⟨-, hmm⟩; exact hm hmm)]
    rw [if_neg (by rw [h c (List.mem_cons_self c cs)]; exact Bool.false_ne_true)]
    have := ih fun d hd => h d (List.mem_cons_of_mem c hd)
    rw [escape] at this
    rw [this]
    rfl

theorem unescape_eq_self (s : GoStr) (mode : Encoding)
    (hm : mode ≠ encodeQueryComponent)
    (h1 : ∀ c ∈ s, c ≠ '%')
    (h2 : ∀ c ∈ s, (mode = encodeHost ∨ mode = encodeZone) →
      shouldEscape c mode = false) :
    unescape s mode = some s := by
  induction s with
  | nil => rfl
  | cons c cs ih =>
    have ihv := ih (fun d hd => h1 d (List.mem_cons_of_mem c hd))
      (fun d hd => h2 d (List.mem_cons_of_mem c hd))
    unfold unescape
    rw [if_neg (by
      intro he
      exact h1 c (List.mem_cons_self c cs) he)]
    by_cases hplus : c = '+'
    · rw [if_pos hplus, ihv]
      subst hplus
      rw [if_neg hm]
      rfl
    · rw [if_neg hplus]
      rw [if_neg (by
        rintro ⟨hmz, -, hesc⟩
        rw [h2 c (List.mem_cons_self c cs) hmz] at hesc
        exact Bool.false_ne_true hesc)]
      rw [ihv]
      rfl

/-! ### Trailing-slash trimming -/

theorem stringsTrimRight_prefix (s : GoStr) (c : Char) :
    ∃ t, s = stringsTrimRight s c ++ t ∧ ∀ d ∈ t, d = c := by
  unfold stringsTrimRight
  obtain ⟨t, ht⟩ : ∃ t, s.reverse = t ++ s.reverse.dropWhile (fun d => d = c) ∧
      ∀ d ∈ t, d = c := by
    refine ⟨s.reverse.takeWhile (fun d => d = c), ?_, ?_⟩
    · rw [List.takeWhile_append_dropWhile]
    · intro d hd
      have := List.mem_takeWhile_imp hd
      exact of_decide_eq_true this
  refine ⟨t.reverse, ?_, ?_⟩
  · have := congrArg List.reverse ht.1
    rw [List.reverse_reverse, List.reverse_append] at this
    exact this
  · intro d hd
    exact ht.2 d (List.mem_reverse.mp hd)

theorem stringsTrimRight_getLast (s : GoStr) (c : Char) :
    (stringsTrimRight s c).getLast? ≠ some c := by
  unfold stringsTrimRight
  intro h
  rw [List.getLast?_reverse] at h
  have hd := List.head?_dropWhile_not (fun d => d = c) s.reverse
  rw [h] at hd
  simp at hd

theorem stringsTrimRight_eq_self (s : GoStr) (c : Char)
    (h : s.getLast? ≠ some c) : stringsTrimRight s c = s := by
  rcases hr : s.reverse with _ | ⟨x, xs⟩
  · unfold stringsTrimRight
    rw [hr, List.dropWhile_nil]
    simp [List.reverse_eq_nil_iff.mp hr]
  · have hx : ¬ (decide (x = c) = true) := by
      simp only [decide_eq_true_eq]
      intro he
      apply h
      rw [← List.head?_reverse, hr, he]
      rfl
    unfold stringsTrimRight
    rw [hr, List.dropWhile_cons, if_neg hx, ← hr, List.reverse_reverse]

theorem stringsTrimRight_idem (s : GoStr) (c : Char) :
    stringsTrimRight (stringsTrimRight s c) c = stringsTrimRight s c :=
  stringsTrimRight_eq_self _ c (stringsTrimRight_getLast s c)

theorem stringsTrimRight_mem (s : GoStr) (c : Char) (d : Char)
    (hd : d ∈ stringsTrimRight s c) : d ∈ s := by
  obtain ⟨t, ht, -⟩ := stringsTrimRight_prefix s c
  rw [ht]
  exact List.mem_append_left t hd

theorem stringsTrimRight_head (s : GoStr) (c : Char)
    (h : stringsTrimRight s c ≠ []) :
    (stringsTrimRight s c).head? = s.head? := by
  obtain ⟨t, ht, -⟩ := stringsTrimRight_prefix s c
  conv_rhs => rw [ht]
  rcases he : stringsTrimRight s c with _ | ⟨x, xs⟩
  · exact absurd he h
  · rfl

theorem specTrimPath_idem (path : GoStr) :
    specTrimPath (specTrimPath path) = specTrimPath path := by
  unfold specTrimPath
  by_cases h : stringsTrimRight path '/' = []
  · rw [if_pos h]
    rfl
  · rw [if_neg h, stringsTrimRight_idem, if_neg h]

/-! ### Walking the Go string scanners over concatenations -/

theorem stringsCut_not_mem (s : GoStr) (c : Char) (h : c ∉ s) :
    stringsCut s c = (s, [], false) := by
  induction s with
  | nil => rfl
  | cons d ds ih =>
    unfold stringsCut
    rw [if_neg fun he => h (by rw [← he]; exact List.mem_cons_self d ds)]
    rw [ih fun hm => h (List.mem_cons_of_mem d hm)]

theorem stringsCut_append (a b : GoStr) (c : Char) (h : c ∉ a) :
    stringsCut (a ++ c :: b) c = (a, b, true) := by
  induction a with
  | nil => simp [stringsCut]
  | cons d ds ih =>
    rw [List.cons_append]
    unfold stringsCut
    rw [if_neg fun he => h (by rw [← he]; exact List.mem_cons_self d ds)]
    rw [ih fun hm => h (List.mem_cons_of_mem d hm)]

theorem stringsIndex_not_mem (s : GoStr) (c : Char) (h : c ∉ s) :
    stringsIndex s c = none := by
  induction s with
  | nil => rfl
  | cons d ds ih =>
    unfold stringsIndex
    rw [if_neg fun he => h (by rw [← he]; exact List.mem_cons_self d ds)]
    rw [ih fun hm => h (List.mem_cons_of_mem d hm)]
    rfl

theorem stringsIndex_append (a b : GoStr) (c : Char) (h : c ∉ a) :
    stringsIndex (a ++ c :: b) c = some a.length := by
  induction a with
  | nil => simp [stringsIndex]
  | cons d ds ih =>
    rw [List.cons_append]
    unfold stringsIndex
    rw [if_neg fun he => h (by rw [← he]; exact List.mem_cons_self d ds)]
    rw [ih fun hm => h (List.mem_cons_of_mem d hm)]
    rfl

theorem stringsLastIndex_not_mem (s : GoStr) (c : Char) (h : c ∉ s) :
    stringsLastIndex s c = none := by
  induction s with
  | nil => rfl
  | cons d ds ih =>
    unfold stringsLastIndex
    rw [ih fun hm => h (List.mem_cons_of_mem d hm)]
    rw [if_neg fun he => h (by rw [← he]; exact List.mem_cons_self d ds)]

theorem stringsLastIndex_append (a b : GoStr) (c : Char) (h : c ∉ b) :
    stringsLastIndex (a ++ c :: b) c = some a.length := by
  induction a with
  | nil =>
    show stringsLastIndex (c :: b) c = some 0
    unfold stringsLastIndex
    rw [stringsLastIndex_not_mem b c h, if_pos rfl]
  | cons d ds ih =>
    rw [List.cons_append]
    unfold stringsLastIndex
    rw [ih]
    rfl

theorem stringsHasSuffix1_not_mem (s : GoStr) (c : Char) (h : c ∉ s) :
    stringsHasSuffix1 s c = false := by
  unfold stringsHasSuffix1
  rcases hl : s.getLast? with _ | x
  · rfl
  · obtain ⟨hne, hx⟩ := List.mem_getLast?_eq_getLast hl
    have hmem : x ∈ s := hx ▸ List.getLast_mem hne
    have : x ≠ c := fun he => h (he ▸ hmem)
    simp [this]

theorem stringsCut_fst_not_mem (s : GoStr) (c : Char) :
    c ∉ (stringsCut s c).1 := by
  induction s with
  | nil => simp [stringsCut]
  | cons d ds ih =>
    unfold stringsCut
    by_cases hd : d = c
    · rw [if_pos hd]
      simp
    · rw [if_neg hd]
      intro hm
      rcases List.mem_cons.mp hm with he | he
      · exact hd he.symm
      · exact ih he

/-! ### getScheme on a well-formed scheme -/

theorem schemeScan_cons_char (d : Char) (t : GoStr) (i : Nat)
    (hd : schemeChar d = true) (hi : i ≠ 0) :
    schemeScan (d :: t) i = schemeScan t (i + 1) := by
  rw [schemeChar] at hd
  simp only [Bool.or_eq_true, decide_eq_true_eq] at hd
  conv_lhs => unfold schemeScan
  by_cases h1 : (isLowerAlpha d = true ∨ isUpperAlpha d = true)
  · rw [if_pos h1]
  · rw [if_neg h1]
    have h2 : (isDigitChar d = true ∨ d = '+' ∨ d = '-' ∨ d = '.') := by
      rcases hd with h | h | h | h | h | h
      · exact absurd (Or.inl h) h1
      · exact absurd (Or.inr h) h1
      · exact Or.inl h
      · exact Or.inr (Or.inl h)
      · exact Or.inr (Or.inr (Or.inl h))
      · exact Or.inr (Or.inr (Or.inr h))
    rw [if_pos h2, if_neg hi]

theorem schemeScan_to_colon (s : GoStr) (r : GoStr) (i : Nat)
    (hs : ∀ c ∈ s, schemeChar c = true) (hi : i ≠ 0) :
    schemeScan (s ++ ':' :: r) i = .found (i + s.length) := by
  induction s generalizing i with
  | nil =>
    rw [List.nil_append]
    conv_lhs => unfold schemeScan
    rw [if_neg (by decide), if_neg (by decide), if_pos rfl, if_neg hi]
    simp
  | cons d ds ih =>
    rw [List.cons_append,
      schemeScan_cons_char d _ i (hs d (List.mem_cons_self d ds)) hi,
      ih (i + 1) (fun c hc => hs c (List.mem_cons_of_mem d hc)) (by omega)]
    congr 1
    rw [List.length_cons]
    omega

theorem getScheme_build (sch r : GoStr) (hs : schemeOK sch = true) :
    getScheme (sch ++ ':' :: r) = some (sch, r) := by
  rcases sch with _ | ⟨c, cs⟩
  · exact absurd hs (by rw [schemeOK]; exact Bool.false_ne_true)
  · rw [schemeOK, decide_eq_true_eq] at hs
    obtain ⟨hc, hcs⟩ := hs
    unfold getScheme
    have h0 : schemeScan ((c :: cs) ++ ':' :: r) 0 = .found (1 + cs.length) := by
      rw [List.cons_append]
      conv_lhs => unfold schemeScan
      rw [if_pos hc]
      have := schemeScan_to_colon cs r 1 (List.all_eq_true.mp hcs) (by omega)
      rw [this]
    rw [h0]
    dsimp only
    have hlen : 1 + cs.length = (c :: cs).length := by
      simp
      omega
    have ht : ((c :: cs) ++ ':' :: r).take (1 + cs.length) = c :: cs := by
      rw [hlen]
      exact List.take_left (c :: cs) (':' :: r)
    have hd : ((c :: cs) ++ ':' :: r).drop (1 + cs.length + 1) = r := by
      have he : (c :: cs) ++ ':' :: r = ((c :: cs) ++ [':']) ++ r := by
        simp
      rw [he]
      have hlen2 : 1 + cs.length + 1 = ((c :: cs) ++ [':']).length := by
        simp
        omega
      rw [hlen2]
      exact List.drop_left _ r
    rw [ht, hd]

theorem schemeScan_found_chars (t : GoStr) :
    ∀ (i j : Nat), schemeScan t i = .found j →
      ∃ k, j = i + k ∧ ∀ c ∈ t.take k, schemeChar c = true := by
  induction t with
  | nil =>
    intro i j h
    exact absurd h (by unfold schemeScan; exact fun he => by cases he)
  | cons d ds ih =>
    intro i j h
    unfold schemeScan at h
    by_cases h1 : (isLowerAlpha d = true ∨ isUpperAlpha d = true)
    · rw [if_pos h1] at h
      obtain ⟨k, hk, hch⟩ := ih (i + 1) j h
      refine ⟨k + 1, by omega, ?_⟩
      intro c hc
      rw [List.take_succ_cons] at hc
      rcases List.mem_cons.mp hc with he | he
      · subst he
        rw [schemeChar]
        rcases h1 with h1 | h1 <;> simp [h1]
      · exact hch c he
    · rw [if_neg h1] at h
      by_cases h2 : (isDigitChar d = true ∨ d = '+' ∨ d = '-' ∨ d = '.')
      · rw [if_pos h2] at h
        by_cases hi : i = 0
        · rw [if_pos hi] at h
          cases h
        · rw [if_neg hi] at h
          obtain ⟨k, hk, hch⟩ := ih (i + 1) j h
          refine ⟨k + 1, by omega, ?_⟩
          intro c hc
          rw [List.take_succ_cons] at hc
          rcases List.mem_cons.mp hc with he | he
          · subst he
            rw [schemeChar]
            rcases h2 with h2 | h2 | h2 | h2 <;> simp [h2]
          · exact hch c he
      · rw [if_neg h2] at h
        by_cases h3 : d = ':'
        · rw [if_pos h3] at h
          by_cases hi : i = 0
          · rw [if_pos hi] at h
            cases h
          · rw [if_neg hi] at h
            cases h
            exact ⟨0, by omega, by simp⟩
        · rw [if_neg h3] at h
          cases h

theorem upperhexChar_ne_qm (n : Nat) : upperhexChar n ≠ '?' := by
  unfold upperhexChar
  rw [List.getD_eq_getElem?_getD]
  rcases he : ("0123456789ABCDEF".toList)[n]? with _ | x
  · decide
  · have hx : x ∈ "0123456789ABCDEF".toList := List.getElem?_mem he
    have : ∀ y ∈ "0123456789ABCDEF".toList, y ≠ '?' := by decide
    simpa using this x hx

theorem qm_not_mem_escape (s : GoStr) (mode : Encoding)
    (h : shouldEscape '?' mode = true) : '?' ∉ escape s mode := by
  intro hm
  rw [escape, List.mem_flatMap] at hm
  obtain ⟨c, -, hc⟩ := hm
  by_cases h1 : (c = ' ' ∧ mode = encodeQueryComponent)
  · rw [if_pos h1] at hc
    simp at hc
  · rw [if_neg h1] at hc
    by_cases h2 : shouldEscape c mode = true
    · rw [if_pos h2] at hc
      rcases List.mem_cons.mp hc with he | he
      · cases he
      rcases List.mem_cons.mp he with he2 | he2
      · exact upperhexChar_ne_qm _ he2.symm
      rcases List.mem_cons.mp he2 with he3 | he3
      · exact upperhexChar_ne_qm _ he3.symm
      · cases he3
    · rw [if_neg h2] at hc
      rcases List.mem_cons.mp hc with he | he
      · rw [← he] at h2
        exact h2 h
      · cases he

theorem qm_not_mem_userinfoString (ui : Userinfo) :
    '?' ∉ userinfoString ui := by
  unfold userinfoString
  intro hm
  rcases List.mem_append.mp hm with h | h
  · exact qm_not_mem_escape _ _ (by decide) h
  · by_cases hp : ui.passwordSet
    · rw [if_pos hp] at h
      rcases List.mem_cons.mp h with he | he
      · cases he
      · exact qm_not_mem_escape _ _ (by decide) he
    · rw [if_neg hp] at h
      cases h

theorem getScheme_chars (t sch rest : GoStr)
    (h : getScheme t = some (sch, rest)) :
    ∀ c ∈ sch, schemeChar c = true := by
  unfold getScheme at h
  rcases hs : schemeScan t 0 with _ | i
  · rw [hs] at h
    injection h with h
    injection h with h1 h2
    subst h1
    intro c hc
    cases hc
  · rw [hs] at h
    injection h with h
    injection h with h1 h2
    obtain ⟨k, hk, hch⟩ := schemeScan_found_chars t 0 i hs
    subst h1
    intro c hc
    exact hch c (by rwa [show k = i by omega])
  · rw [hs] at h
    cases h

/-! ### Invariants of parse results -/

theorem setFragment_fields (u : URL) (f : GoStr) (v : URL)
    (h : setFragment u f = some v) :
    v.scheme = u.scheme ∧ v.opq = u.opq ∧ v.user = u.user ∧ v.host = u.host ∧
    v.path = u.path ∧ v.rawPath = u.rawPath ∧ v.omitHost = u.omitHost ∧
    v.forceQuery = u.forceQuery ∧ v.rawQuery = u.rawQuery := by
  unfold setFragment at h
  rcases hu : unescape f encodeFragment with _ | frag
  · rw [hu] at h
    cases h
  · rw [hu] at h
    injection h with h
    dsimp only at h
    by_cases he : f = escape frag encodeFragment
    · rw [if_pos he] at h
      rw [← h]
      exact ⟨rfl, rfl, rfl, rfl, rfl, rfl, rfl, rfl, rfl⟩
    · rw [if_neg he] at h
      rw [← h]
      exact ⟨rfl, rfl, rfl, rfl, rfl, rfl, rfl, rfl, rfl⟩

theorem setPath_rawPath (p : GoStr) (pr : GoStr × GoStr)
    (h : setPath p = some pr) : pr.2 = [] ∨ pr.2 = p := by
  unfold setPath at h
  rcases hu : unescape p encodePath with _ | path
  · rw [hu] at h
    cases h
  · rw [hu] at h
    injection h with h
    dsimp only at h
    by_cases he : p = escape path encodePath
    · rw [if_pos he] at h
      rw [← h]
      exact Or.inl rfl
    · rw [if_neg he] at h
      rw [← h]
      exact Or.inr rfl

theorem parseAfterQuery_inv (u0 : URL) (rest : GoStr) (u : URL)
    (h : parseAfterQuery u0 rest = some u) :
    u.scheme = u0.scheme ∧ u.opq = u0.opq ∧ u.forceQuery = u0.forceQuery ∧
    u.rawQuery = u0.rawQuery ∧ (∀ c ∈ u.rawPath, c ∈ rest) := by
  unfold parseAfterQuery at h
  by_cases h1 : (u0.scheme ≠ [] ∨ ¬ ("///".toList).isPrefixOf rest) ∧
      ("//".toList).isPrefixOf rest
  · rw [if_pos h1] at h
    dsimp only at h
    rcases ha : parseAuthority
        (match stringsIndex (rest.drop 2) '/' with
         | some i => ((rest.drop 2).take i, (rest.drop 2).drop i)
         | none => (rest.drop 2, ([] : GoStr))).1 with _ | uh
    · rw [ha] at h
      cases h
    · rw [ha] at h
      dsimp only [Option.bind] at h
      rcases hsp : setPath
          (match stringsIndex (rest.drop 2) '/' with
           | some i => ((rest.drop 2).take i, (rest.drop 2).drop i)
           | none => (rest.drop 2, ([] : GoStr))).2 with _ | pr
      · rw [hsp] at h
        cases h
      · rw [hsp] at h
        injection h with h
        rw [← h]
        refine ⟨rfl, rfl, rfl, rfl, ?_⟩
        intro c hc
        dsimp only at hc
        rcases setPath_rawPath _ _ hsp with hr | hr
        · rw [hr] at hc
          cases hc
        · rw [hr] at hc
          rcases hi : stringsIndex (rest.drop 2) '/' with _ | i <;>
            rw [hi] at hc <;> dsimp only at hc
          · cases hc
          · have : c ∈ rest.drop 2 :=
              (List.drop_sublist i (rest.drop 2)).mem hc
            exact (List.drop_sublist 2 rest).mem this
  · rw [if_neg h1] at h
    by_cases h2 : u0.scheme ≠ [] ∧ rest.head? = some '/'
    · rw [if_pos h2] at h
      rcases hsp : setPath rest with _ | pr
      · rw [hsp] at h
        cases h
      · rw [hsp] at h
        injection h with h
        rw [← h]
        refine ⟨rfl, rfl, rfl, rfl, ?_⟩
        intro c hc
        dsimp only at hc
        rcases setPath_rawPath _ _ hsp with hr | hr
        · rw [hr] at hc
          cases hc
        · rw [hr] at hc
          exact hc
    · rw [if_neg h2] at h
      rcases hsp : setPath rest with _ | pr
      · rw [hsp] at h
        cases h
      · rw [hsp] at h
        injection h with h
        rw [← h]
        refine ⟨rfl, rfl, rfl, rfl, ?_⟩
        intro c hc
        dsimp only at hc
        rcases setPath_rawPath _ _ hsp with hr | hr
        · rw [hr] at hc
          cases hc
        · rw [hr] at hc
          exact hc

theorem parseRawTail_inv (u0 : URL) (rest : GoStr) (u : URL)
    (hsch : '?' ∉ u0.scheme) (hopq : u0.opq = []) (hrp : u0.rawPath = [])
    (hrest : '?' ∉ rest)
    (h : (if rest.head? ≠ some '/' then
            if u0.scheme ≠ [] then some { u0 with opq := rest }
            else if (stringsCut rest '/').1.contains ':' then none
            else parseAfterQuery u0 rest
          else parseAfterQuery u0 rest) = some u) :
    '?' ∉ u.scheme ∧ '?' ∉ u.opq ∧ '?' ∉ u.rawPath := by
  have tail : parseAfterQuery u0 rest = some u →
      '?' ∉ u.scheme ∧ '?' ∉ u.opq ∧ '?' ∉ u.rawPath := by
    intro hq
    obtain ⟨h1, h2, -, -, h5⟩ := parseAfterQuery_inv u0 rest u hq
    refine ⟨?_, ?_, ?_⟩
    · rw [h1]
      exact hsch
    · rw [h2, hopq]
      simp
    · intro hc
      exact hrest (h5 '?' hc)
  split at h
  · split at h
    · injection h with h
      rw [← h]
      refine ⟨hsch, hrest, ?_⟩
      show '?' ∉ u0.rawPath
      rw [hrp]
      simp
    · split at h
      · cases h
      · exact tail h
  · exact tail h

theorem parseRaw_inv (r : GoStr) (u : URL) (h : parseRaw r = some u) :
    '?' ∉ u.scheme ∧ '?' ∉ u.opq ∧ '?' ∉ u.rawPath := by
  unfold parseRaw at h
  split at h
  · cases h
  split at h
  · injection h with h
    rw [← h]
    exact ⟨by simp [emptyURL], by simp [emptyURL], by simp [emptyURL]⟩
  rcases hg : getScheme r with _ | sr
  · rw [hg] at h
    cases h
  rw [hg] at h
  dsimp only [Option.bind] at h
  obtain ⟨sch, rest0⟩ := sr
  have hschqm : '?' ∉ stringsToLower sch := by
    intro hm
    rw [stringsToLower, List.mem_map] at hm
    obtain ⟨d, hd, hde⟩ := hm
    have hdc := getScheme_chars r sch rest0 hg d hd
    have hdne : d ≠ '?' := by
      intro he
      rw [he] at hdc
      exact absurd hdc (by decide)
    exact lowerChar_ne_of_notletter d '?' (by decide) hdne hde
  dsimp only at h
  by_cases hfq : stringsHasSuffix1 rest0 '?' = true ∧
      ¬ (rest0.dropLast.contains '?' = true)
  · rw [if_pos hfq] at h
    refine parseRawTail_inv _ _ u hschqm rfl rfl ?_ h
    intro hm
    exact hfq.2 (List.elem_iff.mpr hm)
  · rw [if_neg hfq] at h
    exact parseRawTail_inv _ _ u hschqm rfl rfl
      (stringsCut_fst_not_mem rest0 '?') h

theorem Parse_inv (s : GoStr) (u : URL) (h : Parse s = some u) :
    '?' ∉ u.scheme ∧ '?' ∉ u.opq ∧ '?' ∉ u.rawPath := by
  unfold Parse at h
  dsimp only at h
  rcases hr : parseRaw (stringsCut s '#').1 with _ | u1
  · rw [hr] at h
    cases h
  · rw [hr] at h
    dsimp only [Option.bind] at h
    obtain ⟨p1, p2, p3⟩ := parseRaw_inv _ _ hr
    by_cases hf : (stringsCut s '#').2.1 = []
    · rw [if_pos hf] at h
      injection h with h
      rw [← h]
      exact ⟨p1, p2, p3⟩
    · rw [if_neg hf] at h
      obtain ⟨g1, g2, -, -, -, g6, -, -, -⟩ := setFragment_fields u1 _ u h
      exact ⟨by rw [g1]; exact p1, by rw [g2]; exact p2, by rw [g6]; exact p3⟩

/-! ### Decomposition of URL.String around the query/fragment tail -/

theorem mem_drec (c : Char) (P : Prop) (inst : Decidable P) (x y : GoStr)
    (h : c ∈ (Decidable.rec (fun _ => x) (fun _ => y) inst : GoStr)) :
    c ∈ x ∨ c ∈ y := by
  cases inst
  · exact Or.inl h
  · exact Or.inr h

theorem urlString_split (u : URL) :
    ∃ base, urlString u = base ++ queryFragPart u ∧
      ∀ c ∈ base, c ∈ u.scheme ∨ c = ':' ∨ c ∈ u.opq ∨ c = '/' ∨ c = '.' ∨
        (∃ ui, u.user = some ui ∧ c ∈ userinfoString ui) ∨ c = '@' ∨
        c ∈ escape u.host encodeHost ∨ c ∈ escapedPath u := by
  have hbuf1 : ∀ c ∈ (if u.scheme ≠ [] then u.scheme ++ [':'] else []),
      c ∈ u.scheme ∨ c = ':' := by
    intro c hc
    split at hc
    · rcases List.mem_append.mp hc with h | h
      · exact Or.inl h
      · exact Or.inr (by simpa using h)
    · cases hc
  unfold urlString
  by_cases ho : u.opq ≠ []
  · rw [if_pos ho]
    refine ⟨(if u.scheme ≠ [] then u.scheme ++ [':'] else []) ++ u.opq,
        rfl, ?_⟩
    intro c hc
    rcases List.mem_append.mp hc with h | h
    · rcases hbuf1 c h with h | h
      · exact Or.inl h
      · exact Or.inr (Or.inl h)
    · exact Or.inr (Or.inr (Or.inl h))
  · rw [if_neg ho]
    refine ⟨_, rfl, ?_⟩
    intro c hc
    simp only [List.mem_append] at hc
    rcases hc with (((hb | hb) | hb) | hb) | hb
    · rcases hbuf1 c hb with h | h
      · exact Or.inl h
      · exact Or.inr (Or.inl h)
    · split at hb
      · split at hb
        · cases hb
        · simp only [List.mem_append] at hb
          rcases hb with (hb | hb) | hb
          · split at hb
            · have : c = '/' := by simpa using hb
              exact Or.inr (Or.inr (Or.inr (Or.inl this)))
            · cases hb
          · rcases hu : u.user with _ | ui
            · rw [hu] at hb
              cases hb
            · rw [hu] at hb
              dsimp only at hb
              rcases List.mem_append.mp hb with hb2 | hb2
              · exact Or.inr (Or.inr (Or.inr (Or.inr (Or.inr (Or.inl
                  ⟨ui, rfl, hb2⟩)))))
              · exact Or.inr (Or.inr (Or.inr (Or.inr (Or.inr (Or.inr (Or.inl
                  (by simpa using hb2)))))))
          · split at hb
            · exact Or.inr (Or.inr (Or.inr (Or.inr (Or.inr (Or.inr (Or.inr
                (Or.inl hb)))))))
            · cases hb
      · cases hb
    · split at hb
      · have : c = '/' := by simpa using hb
        exact Or.inr (Or.inr (Or.inr (Or.inl this)))
      · cases hb
    · rcases mem_drec c _ _ _ _ hb with h | h
      · cases h
      · have : c = '.' ∨ c = '/' := by simpa using h
        rcases this with h2 | h2
        · exact Or.inr (Or.inr (Or.inr (Or.inr (Or.inl h2))))
        · exact Or.inr (Or.inr (Or.inr (Or.inl h2)))
    · exact Or.inr (Or.inr (Or.inr (Or.inr (Or.inr (Or.inr (Or.inr
        (Or.inr hb)))))))

theorem qm_not_mem_escapedPath (v : URL) (hq : '?' ∉ v.rawPath) :
    '?' ∉ escapedPath v := by
  unfold escapedPath
  split
  · exact hq
  · split
    · decide
    · exact qm_not_mem_escape _ _ (by decide)

theorem exists_mid_append (a s m e b c d q : GoStr) :
    ∃ pre post, ((((a ++ ((s ++ m) ++ e)) ++ b) ++ c) ++ d) ++ q =
      pre ++ e ++ post :=
  ⟨a ++ (s ++ m), b ++ (c ++ (d ++ q)), by simp [List.append_assoc]⟩

theorem urlString_host_infix (v : URL) (ho : v.opq = []) (hh : v.host ≠ []) :
    ∃ pre post, urlString v = pre ++ escape v.host encodeHost ++ post := by
  unfold urlString
  rw [if_neg (by simp [ho])]
  rw [if_pos (Or.inr (Or.inl hh))]
  rw [if_neg (by rintro ⟨-, h2, -⟩; exact hh h2)]
  rw [if_pos (Or.inl hh)]
  rw [if_pos hh]
  exact exists_mid_append _ _ _ _ _ _ _ _

/-- C2 amended: whenever the parsed URL is not opaque, the redirection output
contains the literal host www.byfood.com, is entirely lower-case, and equals
the ASCII lower-casing of the serialization after the host substitution. -/
theorem C2_redirection_amended (s : GoStr) (u : URL)
    (hp : Parse s = some u) (hopq : u.opq = []) :
    (∃ pre post, theUseCase.processRedirection u = pre ++ wwwByfood ++ post) ∧
    allLowerStr (theUseCase.processRedirection u) = true ∧
    theUseCase.processRedirection u =
      stringsToLower (urlString { u with host := wwwByfood }) := by
  refine ⟨?_, allLowerStr_toLower _, rfl⟩
  obtain ⟨pre, post, hsplit⟩ :=
    urlString_host_infix { u with host := wwwByfood } hopq
      (by show wwwByfood ≠ []; decide)
  show ∃ p q, stringsToLower (urlString { u with host := wwwByfood }) =
    p ++ wwwByfood ++ q
  rw [hsplit, stringsToLower_append, stringsToLower_append]
  refine ⟨stringsToLower pre, stringsToLower post, ?_⟩
  have hesc : escape ({ u with host := wwwByfood } : URL).host encodeHost =
      wwwByfood := by
    show escape wwwByfood encodeHost = wwwByfood
    decide
  rw [hesc]
  have hlow : stringsToLower wwwByfood = wwwByfood := by decide
  rw [hlow]

/-- C2 witness: the spec's example host BYFOOD.com, with a %2B escape in the
query to exercise the hex lower-casing. -/
theorem C2_witness :
    (∃ pre post, theUseCase.processRedirection
        ⟨"https".toList, [], none, "BYFOOD.com".toList,
          "/food-EXPeriences".toList, [], false, false,
          "query=abc%2B/".toList, [], []⟩ = pre ++ wwwByfood ++ post) ∧
    allLowerStr (theUseCase.processRedirection
        ⟨"https".toList, [], none, "BYFOOD.com".toList,
          "/food-EXPeriences".toList, [], false, false,
          "query=abc%2B/".toList, [], []⟩) = true ∧
    theUseCase.processRedirection
        ⟨"https".toList, [], none, "BYFOOD.com".toList,
          "/food-EXPeriences".toList, [], false, false,
          "query=abc%2B/".toList, [], []⟩ =
      stringsToLower (urlString
        { (⟨"https".toList, [], none, "BYFOOD.com".toList,
            "/food-EXPeriences".toList, [], false, false,
            "query=abc%2B/".toList, [], []⟩ : URL) with host := wwwByfood }) :=
  C2_redirection_amended
    ("https://BYFOOD.com/food-EXPeriences?query=abc%2B/".toList) _
    (by rfl) (by rfl)

/-- C4 amended: the canonical output is a '?'-free base, followed by a bare
'?' exactly when the input had a present-but-empty query (ForceQuery), and a
fragment tail; the query content itself is always discarded. -/
theorem C4_canonical_amended (s : GoStr) (u : URL) (hp : Parse s = some u) :
    ∃ base fragPart,
      theUseCase.processCanonical u =
        base ++ ((if u.forceQuery then ['?'] else []) ++ fragPart) ∧
      '?' ∉ base ∧
      (fragPart = [] ∨ ∃ ff, fragPart = '#' :: ff) := by
  obtain ⟨q1, q2, q3⟩ := Parse_inv s u hp
  have hpc : theUseCase.processCanonical u =
      urlString
        { u with
            rawQuery := ([] : GoStr)
            path := specTrimPath u.path } := rfl
  rw [hpc]
  obtain ⟨base, hbase, hmem⟩ := urlString_split
    { u with
        rawQuery := ([] : GoStr)
        path := specTrimPath u.path }
  refine ⟨base,
    (if u.fragment ≠ [] then
      '#' :: escapedFragment
        { u with
            rawQuery := ([] : GoStr)
            path := specTrimPath u.path }
     else []), ?_, ?_, ?_⟩
  · rw [hbase]
    congr 1
    show queryFragPart _ = _
    unfold queryFragPart
    congr 1
    by_cases hf : u.forceQuery = true
    · rw [if_pos (Or.inl hf), if_pos hf]
    · rw [if_neg ?_, if_neg hf]
      rintro (h | h)
      · exact hf h
      · exact h rfl
  · intro hq
    rcases hmem '?' hq with h | h | h | h | h | h | h | h | h
    · exact q1 h
    · exact absurd h (by decide)
    · exact q2 h
    · exact absurd h (by decide)
    · exact absurd h (by decide)
    · obtain ⟨ui, -, hui⟩ := h
      exact qm_not_mem_userinfoString ui hui
    · exact absurd h (by decide)
    · exact qm_not_mem_escape _ _ (by decide) h
    · exact qm_not_mem_escapedPath
        { u with
            rawQuery := ([] : GoStr)
            path := specTrimPath u.path } q3 h
  · by_cases hf : u.fragment ≠ []
    · rw [if_pos hf]
      exact Or.inr ⟨_, rfl⟩
    · rw [if_neg hf]
      exact Or.inl rfl

/-! ### Character codes of the plain classes -/

theorem char_ne_of_toNat (c d : Char) (h : c.toNat ≠ d.toNat) : c ≠ d := by
  intro he
  rw [he] at h
  exact h rfl

theorem schemeChar_codes (c : Char) (h : schemeChar c = true) :
    (97 ≤ c.toNat ∧ c.toNat ≤ 122) ∨ (65 ≤ c.toNat ∧ c.toNat ≤ 90) ∨
    (48 ≤ c.toNat ∧ c.toNat ≤ 57) ∨ c.toNat = 43 ∨ c.toNat = 45 ∨
    c.toNat = 46 := by
  rw [schemeChar] at h
  simp only [Bool.or_eq_true, decide_eq_true_eq, isLowerAlpha, isUpperAlpha,
    isDigitChar] at h
  rcases h with h | h | h | h | h | h
  · exact Or.inl h
  · exact Or.inr (Or.inl h)
  · exact Or.inr (Or.inr (Or.inl h))
  · subst h; exact Or.inr (Or.inr (Or.inr (Or.inl rfl)))
  · subst h; exact Or.inr (Or.inr (Or.inr (Or.inr (Or.inl rfl))))
  · subst h; exact Or.inr (Or.inr (Or.inr (Or.inr (Or.inr rfl))))

theorem hostChar_codes (c : Char) (h : hostChar c = true) :
    (97 ≤ c.toNat ∧ c.toNat ≤ 122) ∨ (65 ≤ c.toNat ∧ c.toNat ≤ 90) ∨
    (48 ≤ c.toNat ∧ c.toNat ≤ 57) ∨ c.toNat = 46 ∨ c.toNat = 45 ∨
    c.toNat = 95 := by
  rw [hostChar] at h
  simp only [Bool.or_eq_true, decide_eq_true_eq, isLowerAlpha, isUpperAlpha,
    isDigitChar] at h
  rcases h with h | h | h | h | h | h
  · exact Or.inl h
  · exact Or.inr (Or.inl h)
  · exact Or.inr (Or.inr (Or.inl h))
  · subst h; exact Or.inr (Or.inr (Or.inr (Or.inl rfl)))
  · subst h; exact Or.inr (Or.inr (Or.inr (Or.inr (Or.inl rfl))))
  · subst h; exact Or.inr (Or.inr (Or.inr (Or.inr (Or.inr rfl))))

theorem pathChar_codes (c : Char) (h : pathChar c = true) :
    (97 ≤ c.toNat ∧ c.toNat ≤ 122) ∨ (65 ≤ c.toNat ∧ c.toNat ≤ 90) ∨
    (48 ≤ c.toNat ∧ c.toNat ≤ 57) ∨
    c.toNat ∈ ([45, 95, 46, 126, 47, 36, 38, 44, 58, 59, 61, 64] :
      List Nat) := by
  rw [pathChar] at h
  simp only [Bool.or_eq_true, decide_eq_true_eq, isLowerAlpha, isUpperAlpha,
    isDigitChar] at h
  rcases h with h | h | h | h | h | h | h | h | h | h | h | h | h | h | h
  · exact Or.inl h
  · exact Or.inr (Or.inl h)
  · exact Or.inr (Or.inr (Or.inl h))
  all_goals subst h
  all_goals exact Or.inr (Or.inr (Or.inr (by decide)))

theorem fragChar_codes (c : Char) (h : fragChar c = true) :
    (97 ≤ c.toNat ∧ c.toNat ≤ 122) ∨ (65 ≤ c.toNat ∧ c.toNat ≤ 90) ∨
    (48 ≤ c.toNat ∧ c.toNat ≤ 57) ∨
    c.toNat ∈ ([45, 95, 46, 126, 47, 36, 38, 44, 58, 59, 61, 64, 63, 43,
      33, 40, 41, 42] : List Nat) := by
  rw [fragChar] at h
  simp only [Bool.or_eq_true, decide_eq_true_eq, isLowerAlpha, isUpperAlpha,
    isDigitChar] at h
  rcases h with h | h | h | h | h | h | h | h | h | h | h | h | h | h | h |
    h | h | h | h | h | h
  · exact Or.inl h
  · exact Or.inr (Or.inl h)
  · exact Or.inr (Or.inr (Or.inl h))
  all_goals subst h
  all_goals exact Or.inr (Or.inr (Or.inr (by decide)))

theorem digit_codes (c : Char) (h : isDigitChar c = true) :
    48 ≤ c.toNat ∧ c.toNat ≤ 57 := by
  rw [isDigitChar, decide_eq_true_eq] at h
  exact h

theorem schemeChar_excl (c : Char) (h : schemeChar c = true) :
    c ≠ '#' ∧ c ≠ '?' ∧ 32 ≤ c.toNat ∧ c.toNat ≠ 127 := by
  have hco := schemeChar_codes c h
  refine ⟨char_ne_of_toNat c _ ?_, char_ne_of_toNat c _ ?_, ?_, ?_⟩ <;>
    · simp only [show ('#').toNat = 35 from rfl, show ('?').toNat = 63
        from rfl] at *
      omega

theorem hostChar_excl (c : Char) (h : hostChar c = true) :
    c ≠ '#' ∧ c ≠ '?' ∧ c ≠ '/' ∧ c ≠ '@' ∧ c ≠ ':' ∧ c ≠ '[' ∧ c ≠ '%' ∧
    32 ≤ c.toNat ∧ c.toNat ≠ 127 := by
  have hco := hostChar_codes c h
  refine ⟨char_ne_of_toNat c _ ?_, char_ne_of_toNat c _ ?_,
    char_ne_of_toNat c _ ?_, char_ne_of_toNat c _ ?_,
    char_ne_of_toNat c _ ?_, char_ne_of_toNat c _ ?_,
    char_ne_of_toNat c _ ?_, ?_, ?_⟩ <;>
    · simp only [show ('#').toNat = 35 from rfl, show ('?').toNat = 63
        from rfl, show ('/').toNat = 47 from rfl, show ('@').toNat = 64
        from rfl, show (':').toNat = 58 from rfl, show ('[').toNat = 91
        from rfl, show ('%').toNat = 37 from rfl] at *
      omega

theorem pathChar_excl (c : Char) (h : pathChar c = true) :
    c ≠ '#' ∧ c ≠ '?' ∧ c ≠ '%' ∧ 32 ≤ c.toNat ∧ c.toNat ≠ 127 := by
  have hco := pathChar_codes c h
  have hm : c.toNat ∈ ([45, 95, 46, 126, 47, 36, 38, 44, 58, 59, 61, 64] :
      List Nat) → c.toNat ≠ 35 ∧ c.toNat ≠ 63 ∧ c.toNat ≠ 37 ∧
      32 ≤ c.toNat ∧ c.toNat ≠ 127 := by
    intro hmem
    simp only [List.mem_cons, List.not_mem_nil, or_false] at hmem
    omega
  refine ⟨char_ne_of_toNat c _ ?_, char_ne_of_toNat c _ ?_,
    char_ne_of_toNat c _ ?_, ?_, ?_⟩ <;>
    · try simp only [show ('#').toNat = 35 from rfl, show ('?').toNat = 63
        from rfl, show ('%').toNat = 37 from rfl]
      rcases hco with h | h | h | h
      · omega
      · omega
      · omega
      · have := hm h
        omega

theorem fragChar_excl (c : Char) (h : fragChar c = true) :
    c ≠ '#' ∧ c ≠ '%' ∧ 32 ≤ c.toNat ∧ c.toNat ≠ 127 := by
  have hco := fragChar_codes c h
  have hm : c.toNat ∈ ([45, 95, 46, 126, 47, 36, 38, 44, 58, 59, 61, 64, 63,
      43, 33, 40, 41, 42] : List Nat) → c.toNat ≠ 35 ∧ c.toNat ≠ 37 ∧
      32 ≤ c.toNat ∧ c.toNat ≠ 127 := by
    intro hmem
    simp only [List.mem_cons, List.not_mem_nil, or_false] at hmem
    omega
  refine ⟨char_ne_of_toNat c _ ?_, char_ne_of_toNat c _ ?_, ?_, ?_⟩ <;>
    · try simp only [show ('#').toNat = 35 from rfl, show ('%').toNat = 37
        from rfl]
      rcases hco with h | h | h | h
      · omega
      · omega
      · omega
      · have := hm h
        omega

theorem digit_excl (c : Char) (h : isDigitChar c = true) :
    c ≠ '#' ∧ c ≠ '?' ∧ c ≠ '/' ∧ c ≠ '@' ∧ c ≠ ':' ∧ c ≠ '%' ∧
    32 ≤ c.toNat ∧ c.toNat ≠ 127 := by
  have hco := digit_codes c h
  refine ⟨char_ne_of_toNat c _ ?_, char_ne_of_toNat c _ ?_,
    char_ne_of_toNat c _ ?_, char_ne_of_toNat c _ ?_,
    char_ne_of_toNat c _ ?_, char_ne_of_toNat c _ ?_, ?_, ?_⟩ <;>
    · simp only [show ('#').toNat = 35 from rfl, show ('?').toNat = 63
        from rfl, show ('/').toNat = 47 from rfl, show ('@').toNat = 64
        from rfl, show (':').toNat = 58 from rfl, show ('%').toNat = 37
        from rfl] at *
      omega

theorem queryChar_excl (c : Char) (h : queryChar c = true) :
    c ≠ '#' ∧ 32 ≤ c.toNat ∧ c.toNat ≠ 127 := by
  rw [queryChar, decide_eq_true_eq] at h
  obtain ⟨h1, h2, h3⟩ := h
  exact ⟨h1, by rwa [decide_eq_true_eq] at h2, h3⟩

/-! ### The component parsers are the identity on plain components -/

theorem mem_portPart (c : Char) (port : Option GoStr) (h : c ∈ portPart port) :
    c = ':' ∨ ∃ p, port = some p ∧ c ∈ p := by
  rcases port with _ | p
  · cases h
  · rcases List.mem_cons.mp h with he | he
    · exact Or.inl he
    · exact Or.inr ⟨p, rfl, he⟩

theorem portOK_all (port : Option GoStr) (p : GoStr) (hp : portOK port = true)
    (he : port = some p) : p.all isDigitChar = true := by
  subst he
  exact hp

theorem hostport_char (c : Char) (host : GoStr) (port : Option GoStr)
    (hh : host.all hostChar = true) (hp : portOK port = true)
    (hc : c ∈ host ++ portPart port) :
    hostChar c = true ∨ c = ':' ∨ isDigitChar c = true := by
  rcases List.mem_append.mp hc with h | h
  · exact Or.inl (List.all_eq_true.mp hh c h)
  · rcases mem_portPart c port h with he | ⟨p, hep, hmem⟩
    · exact Or.inr (Or.inl he)
    · exact Or.inr (Or.inr
        (List.all_eq_true.mp (portOK_all port p hp hep) c hmem))

theorem qm_not_mem_hostport (host : GoStr) (port : Option GoStr)
    (hh : host.all hostChar = true) (hp : portOK port = true) :
    '?' ∉ host ++ portPart port := by
  intro hc
  rcases hostport_char '?' host port hh hp hc with h | h | h
  · exact (hostChar_excl _ h).2.1 rfl
  · cases h
  · exact (digit_excl _ h).2.1 rfl

theorem slash_not_mem_hostport (host : GoStr) (port : Option GoStr)
    (hh : host.all hostChar = true) (hp : portOK port = true) :
    '/' ∉ host ++ portPart port := by
  intro hc
  rcases hostport_char '/' host port hh hp hc with h | h | h
  · exact (hostChar_excl _ h).2.2.1 rfl
  · cases h
  · exact (digit_excl _ h).2.2.1 rfl

theorem at_not_mem_hostport (host : GoStr) (port : Option GoStr)
    (hh : host.all hostChar = true) (hp : portOK port = true) :
    '@' ∉ host ++ portPart port := by
  intro hc
  rcases hostport_char '@' host port hh hp hc with h | h | h
  · exact (hostChar_excl _ h).2.2.2.1 rfl
  · cases h
  · exact (digit_excl _ h).2.2.2.1 rfl

theorem hash_not_mem_hostport (host : GoStr) (port : Option GoStr)
    (hh : host.all hostChar = true) (hp : portOK port = true) :
    '#' ∉ host ++ portPart port := by
  intro hc
  rcases hostport_char '#' host port hh hp hc with h | h | h
  · exact (hostChar_excl _ h).1 rfl
  · cases h
  · exact (digit_excl _ h).1 rfl

theorem escape_hostport (host : GoStr) (port : Option GoStr)
    (hh : host.all hostChar = true) (hp : portOK port = true) :
    escape (host ++ portPart port) encodeHost = host ++ portPart port := by
  refine escape_eq_self _ _ (by decide) fun c hc => ?_
  rcases hostport_char c host port hh hp hc with h | h | h
  · exact hostChar_not_shouldEscape c h
  · subst h; decide
  · exact shouldEscape_of_alnum c _ (Or.inr (Or.inr h))

theorem unescape_hostport (host : GoStr) (port : Option GoStr)
    (hh : host.all hostChar = true) (hp : portOK port = true) :
    unescape (host ++ portPart port) encodeHost =
      some (host ++ portPart port) := by
  refine unescape_eq_self _ _ (by decide) (fun c hc => ?_) (fun c hc _ => ?_)
  · rcases hostport_char c host port hh hp hc with h | h | h
    · exact (hostChar_excl _ h).2.2.2.2.2.2.1
    · subst h; decide
    · exact (digit_excl _ h).2.2.2.2.2.1
  · rcases hostport_char c host port hh hp hc with h | h | h
    · exact hostChar_not_shouldEscape c h
    · subst h; decide
    · exact shouldEscape_of_alnum c _ (Or.inr (Or.inr h))

theorem parseHost_hostport (host : GoStr) (port : Option GoStr)
    (hne : host ≠ []) (hh : host.all hostChar = true)
    (hp : portOK port = true) :
    parseHost (host ++ portPart port) = some (host ++ portPart port) := by
  unfold parseHost
  rcases host with _ | ⟨h0, ht⟩
  · exact absurd rfl hne
  have hh0 : hostChar h0 = true :=
    List.all_eq_true.mp hh h0 (List.mem_cons_self _ _)
  rw [if_neg (by
    intro hbr
    simp only [List.cons_append, List.head?_cons, Option.some.injEq] at hbr
    exact (hostChar_excl _ hh0).2.2.2.2.2.1 hbr)]
  rcases port with _ | p
  · rw [stringsLastIndex_not_mem _ ':' (by
      intro hc
      have hc' : ':' ∈ h0 :: ht := by
        rcases List.mem_append.mp hc with h | h
        · exact h
        · exact absurd h (List.not_mem_nil ':')
      exact (hostChar_excl _
        (List.all_eq_true.mp hh ':' hc')).2.2.2.2.1 rfl)]
    exact unescape_hostport (h0 :: ht) none hh hp
  · have hip : (h0 :: ht) ++ portPart (some p) = (h0 :: ht) ++ ':' :: p := rfl
    rw [hip]
    rw [stringsLastIndex_append _ _ _ (by
      intro hc
      exact (digit_excl ':'
        (List.all_eq_true.mp (portOK_all (some p) p hp rfl) ':' hc)).2.2.2.2.1
        rfl)]
    dsimp only
    rw [if_neg (by
      rw [List.drop_left]
      simp only [validOptionalPort, decide_eq_true_eq, not_not]
      exact ⟨trivial, portOK_all (some p) p hp rfl⟩)]
    exact unescape_hostport (h0 :: ht) (some p) hh hp

theorem parseAuthority_hostport (host : GoStr) (port : Option GoStr)
    (hne : host ≠ []) (hh : host.all hostChar = true)
    (hp : portOK port = true) :
    parseAuthority (host ++ portPart port) =
      some (none, host ++ portPart port) := by
  unfold parseAuthority
  rw [stringsLastIndex_not_mem _ '@' (at_not_mem_hostport host port hh hp)]
  rw [parseHost_hostport host port hne hh hp]
  rfl

theorem escape_path_all (p : GoStr) (hp : p.all pathChar = true) :
    escape p encodePath = p :=
  escape_eq_self _ _ (by decide) fun c hc =>
    pathChar_not_shouldEscape c (List.all_eq_true.mp hp c hc)

theorem unescape_path_all (p : GoStr) (hp : p.all pathChar = true) :
    unescape p encodePath = some p :=
  unescape_eq_self _ _ (by decide)
    (fun c hc => (pathChar_excl c (List.all_eq_true.mp hp c hc)).2.2.1)
    (fun _ _ hm => by cases hm <;> contradiction)

theorem setPath_plain (p : GoStr) (hp : p.all pathChar = true) :
    setPath p = some (p, []) := by
  unfold setPath
  rw [unescape_path_all p hp]
  dsimp only [Option.map]
  rw [if_pos (escape_path_all p hp).symm]

theorem escape_frag_all (p : GoStr) (hp : p.all fragChar = true) :
    escape p encodeFragment = p :=
  escape_eq_self _ _ (by decide) fun c hc =>
    fragChar_not_shouldEscape c (List.all_eq_true.mp hp c hc)

theorem unescape_frag_all (p : GoStr) (hp : p.all fragChar = true) :
    unescape p encodeFragment = some p :=
  unescape_eq_self _ _ (by decide)
    (fun c hc => (fragChar_excl c (List.all_eq_true.mp hp c hc)).2.1)
    (fun _ _ hm => by cases hm <;> contradiction)

theorem setFragment_plain (u : URL) (f : GoStr)
    (hf : f.all fragChar = true) :
    setFragment u f = some { u with fragment := f, rawFragment := [] } := by
  unfold setFragment
  rw [unescape_frag_all f hf]
  dsimp only [Option.map]
  rw [if_pos (escape_frag_all f hf).symm]

/-! ### Decomposing the OK predicates, and membership in a shaped string -/

theorem hostOK_parts (host : GoStr) (hh : hostOK host = true) :
    host ≠ [] ∧ host.all hostChar = true := by
  rw [hostOK, decide_eq_true_eq] at hh
  exact hh

theorem schemeOK_ne_nil (sch : GoStr) (hs : schemeOK sch = true) : sch ≠ [] := by
  intro he
  subst he
  exact Bool.false_ne_true hs

theorem schemeOK_mem (sch : GoStr) (hs : schemeOK sch = true) (c : Char)
    (hc : c ∈ sch) : schemeChar c = true := by
  rcases sch with _ | ⟨a, as⟩
  · cases hc
  rw [schemeOK, decide_eq_true_eq] at hs
  rcases List.mem_cons.mp hc with he | hm
  · subst he
    rw [schemeChar, decide_eq_true_eq]
    rcases hs.1 with h | h
    · exact Or.inl h
    · exact Or.inr (Or.inl h)
  · exact List.all_eq_true.mp hs.2 c hm

theorem pathOK_mem (path : GoStr) (hpa : pathOK path = true) (c : Char)
    (hc : c ∈ path) : pathChar c = true := by
  rw [pathOK, decide_eq_true_eq] at hpa
  rcases hpa with he | ⟨_, hall⟩
  · subst he; cases hc
  · exact List.all_eq_true.mp hall c hc

theorem pathOK_cases (path : GoStr) (hpa : pathOK path = true) :
    path = [] ∨ ∃ pt, path = '/' :: pt ∧ path.all pathChar = true := by
  rw [pathOK, decide_eq_true_eq] at hpa
  rcases hpa with he | ⟨hhd, hall⟩
  · exact Or.inl he
  · rcases path with _ | ⟨p0, pt⟩
    · cases hhd
    · simp only [List.head?_cons, Option.some.injEq] at hhd
      exact Or.inr ⟨pt, by rw [hhd], hall⟩

theorem queryOK_parts (qs : GoStr) (hq : queryOK (some qs) = true) :
    qs ≠ [] ∧ qs.all queryChar = true := by
  rw [queryOK, decide_eq_true_eq] at hq
  exact hq

theorem fragOK_parts (fs : GoStr) (hf : fragOK (some fs) = true) :
    fs ≠ [] ∧ fs.all fragChar = true := by
  rw [fragOK, decide_eq_true_eq] at hf
  exact hf

theorem mem_optPart (m c : Char) (o : Option GoStr) (h : c ∈ optPart m o) :
    c = m ∨ ∃ s, o = some s ∧ c ∈ s := by
  rcases o with _ | s
  · cases h
  · rcases List.mem_cons.mp h with he | he
    · exact Or.inl he
    · exact Or.inr ⟨s, rfl, he⟩

theorem mem_rest0 (c : Char) (host path : GoStr) (port : Option GoStr)
    (hc : c ∈ '/' :: '/' :: (host ++ (portPart port ++ path))) :
    c = '/' ∨ c ∈ host ∨ c ∈ portPart port ∨ c ∈ path := by
  rcases List.mem_cons.mp hc with he | h
  · exact Or.inl he
  rcases List.mem_cons.mp h with he | h
  · exact Or.inl he
  rcases List.mem_append.mp h with h | h
  · exact Or.inr (Or.inl h)
  rcases List.mem_append.mp h with h | h
  · exact Or.inr (Or.inr (Or.inl h))
  · exact Or.inr (Or.inr (Or.inr h))

theorem qm_not_mem_rest0 (host path : GoStr) (port : Option GoStr)
    (hh : host.all hostChar = true) (hpo : portOK port = true)
    (hpa : pathOK path = true) :
    '?' ∉ '/' :: '/' :: (host ++ (portPart port ++ path)) := by
  intro hc
  rcases mem_rest0 '?' host path port hc with he | h | h | h
  · exact absurd he (by decide)
  · exact (hostChar_excl _ (List.all_eq_true.mp hh _ h)).2.1 rfl
  · rcases mem_portPart _ port h with he | ⟨p, hep, hm⟩
    · exact absurd he (by decide)
    · exact (digit_excl _
        (List.all_eq_true.mp (portOK_all port p hpo hep) _ hm)).2.1 rfl
  · exact (pathChar_excl _ (pathOK_mem path hpa _ h)).2.1 rfl

theorem mem_preF (c : Char) (sch host path : GoStr) (port q : Option GoStr)
    (hc : c ∈ sch ++ ':' :: '/' :: '/' ::
      (host ++ (portPart port ++ (path ++ optPart '?' q)))) :
    c ∈ sch ∨ c = ':' ∨ c = '/' ∨ c ∈ host ∨ c ∈ portPart port ∨
      c ∈ path ∨ c ∈ optPart '?' q := by
  rcases List.mem_append.mp hc with h | h
  · exact Or.inl h
  rcases List.mem_cons.mp h with he | h
  · exact Or.inr (Or.inl he)
  rcases List.mem_cons.mp h with he | h
  · exact Or.inr (Or.inr (Or.inl he))
  rcases List.mem_cons.mp h with he | h
  · exact Or.inr (Or.inr (Or.inl he))
  rcases List.mem_append.mp h with h | h
  · exact Or.inr (Or.inr (Or.inr (Or.inl h)))
  rcases List.mem_append.mp h with h | h
  · exact Or.inr (Or.inr (Or.inr (Or.inr (Or.inl h))))
  rcases List.mem_append.mp h with h | h
  · exact Or.inr (Or.inr (Or.inr (Or.inr (Or.inr (Or.inl h)))))
  · exact Or.inr (Or.inr (Or.inr (Or.inr (Or.inr (Or.inr h)))))

theorem preF_char_facts (sch host path : GoStr) (port q : Option GoStr)
    (hs : schemeOK sch = true) (hh : host.all hostChar = true)
    (hpo : portOK port = true) (hpa : pathOK path = true)
    (hq : queryOK q = true) (c : Char)
    (hc : c ∈ sch ++ ':' :: '/' :: '/' ::
      (host ++ (portPart port ++ (path ++ optPart '?' q)))) :
    c ≠ '#' ∧ 32 ≤ c.toNat ∧ c.toNat ≠ 127 := by
  rcases mem_preF c sch host path port q hc with h | h | h | h | h | h | h
  · have hx := schemeChar_excl c (schemeOK_mem sch hs c h)
    exact ⟨hx.1, hx.2.2.1, hx.2.2.2⟩
  · subst h; exact ⟨by decide, by decide, by decide⟩
  · subst h; exact ⟨by decide, by decide, by decide⟩
  · have hx := hostChar_excl c (List.all_eq_true.mp hh c h)
    exact ⟨hx.1, hx.2.2.2.2.2.2.2.1, hx.2.2.2.2.2.2.2.2⟩
  · rcases mem_portPart c port h with he | ⟨p, hep, hm⟩
    · subst he; exact ⟨by decide, by decide, by decide⟩
    · have hx := digit_excl c
        (List.all_eq_true.mp (portOK_all port p hpo hep) c hm)
      exact ⟨hx.1, hx.2.2.2.2.2.2.1, hx.2.2.2.2.2.2.2⟩
  · have hx := pathChar_excl c (pathOK_mem path hpa c h)
    exact ⟨hx.1, hx.2.2.2.1, hx.2.2.2.2⟩
  · rcases mem_optPart '?' c q h with he | ⟨qs, heq, hm⟩
    · subst he; exact ⟨by decide, by decide, by decide⟩
    · subst heq
      exact queryChar_excl c
        (List.all_eq_true.mp (queryOK_parts qs hq).2 c hm)

theorem buildURLStr_eq (sch host path : GoStr) (port q f : Option GoStr) :
    buildURLStr sch host port path q f =
      (sch ++ ':' :: '/' :: '/' ::
        (host ++ (portPart port ++ (path ++ optPart '?' q)))) ++
        optPart '#' f := by
  simp [buildURLStr, List.append_assoc]

theorem dropLast_append_cons_cons (a b : Char) (l1 l2 : GoStr) :
    (l1 ++ a :: b :: l2).dropLast = l1 ++ a :: (b :: l2).dropLast := by
  induction l1 with
  | nil => rfl
  | cons x xs ih =>
    have hne : xs ++ a :: b :: l2 ≠ [] := by simp
    rw [List.cons_append, List.dropLast_cons_of_ne_nil hne, ih, List.cons_append]

theorem parseAfterQuery_shaped (u0 : URL) (host path : GoStr)
    (port : Option GoStr) (hsch : u0.scheme ≠ [])
    (hh : hostOK host = true) (hpo : portOK port = true)
    (hpa : pathOK path = true) :
    parseAfterQuery u0 ('/' :: '/' :: (host ++ (portPart port ++ path))) =
      some { u0 with
              user := none
              host := host ++ portPart port
              path := path
              rawPath := [] } := by
  obtain ⟨hne, hall⟩ := hostOK_parts host hh
  unfold parseAfterQuery
  rw [if_pos ⟨Or.inl hsch, by simp [List.isPrefixOf]⟩]
  dsimp only
  simp only [List.drop_succ_cons, List.drop_zero]
  rcases pathOK_cases path hpa with he | ⟨pt, he, hpall⟩
  · subst he
    rw [List.append_nil]
    rw [stringsIndex_not_mem _ '/' (slash_not_mem_hostport host port hall hpo)]
    dsimp only
    rw [parseAuthority_hostport host port hne hall hpo]
    dsimp only [Option.bind]
    rw [setPath_plain [] (by decide)]
    rfl
  · subst he
    rw [show host ++ (portPart port ++ '/' :: pt) =
      (host ++ portPart port) ++ '/' :: pt from (List.append_assoc _ _ _).symm]
    rw [stringsIndex_append _ _ _ (slash_not_mem_hostport host port hall hpo)]
    dsimp only
    rw [List.take_left, List.drop_left]
    rw [parseAuthority_hostport host port hne hall hpo]
    dsimp only [Option.bind]
    rw [setPath_plain ('/' :: pt) hpall]
    rfl

theorem preF_noCTL (sch host path : GoStr) (port q : Option GoStr)
    (hs : schemeOK sch = true) (hh : host.all hostChar = true)
    (hpo : portOK port = true) (hpa : pathOK path = true)
    (hq : queryOK q = true) :
    stringContainsCTLByte (sch ++ ':' :: '/' :: '/' ::
      (host ++ (portPart port ++ (path ++ optPart '?' q)))) = false := by
  rw [Bool.eq_false_iff]
  intro hct
  rw [stringContainsCTLByte, List.any_eq_true] at hct
  obtain ⟨c, hc, hprop⟩ := hct
  have hx := preF_char_facts sch host path port q hs hh hpo hpa hq c hc
  simp only [Bool.or_eq_true, decide_eq_true_eq] at hprop
  rcases hprop with h | h
  · omega
  · exact hx.2.2 h

theorem preF_ne_star (sch host path : GoStr) (port q : Option GoStr)
    (hs : schemeOK sch = true) :
    sch ++ ':' :: '/' :: '/' ::
      (host ++ (portPart port ++ (path ++ optPart '?' q))) ≠ "*".toList := by
  rcases sch with _ | ⟨a, as⟩
  · exact absurd hs (by rw [schemeOK]; exact Bool.false_ne_true)
  · intro he
    simp only [List.cons_append, show ("*".toList : GoStr) = ['*'] from rfl,
      List.cons.injEq] at he
    exact absurd he.2 (by simp)

theorem parseRaw_shaped (sch host path : GoStr) (port q : Option GoStr)
    (hs : schemeOK sch = true) (hh : hostOK host = true)
    (hpo : portOK port = true) (hpa : pathOK path = true)
    (hq : queryOK q = true) :
    parseRaw (sch ++ ':' :: '/' :: '/' ::
        (host ++ (portPart port ++ (path ++ optPart '?' q)))) =
      some (shapedURL sch host port path q none) := by
  obtain ⟨hne, hall⟩ := hostOK_parts host hh
  unfold parseRaw
  rw [if_neg (by
    rw [preF_noCTL sch host path port q hs hall hpo hpa hq]
    exact Bool.false_ne_true)]
  rw [if_neg (preF_ne_star sch host path port q hs)]
  rw [getScheme_build sch _ hs]
  dsimp only [Option.bind]
  rcases q with _ | qs
  · simp only [optPart, List.append_nil]
    have hsuf := stringsHasSuffix1_not_mem _ '?'
      (qm_not_mem_rest0 host path port hall hpo hpa)
    rw [stringsCut_not_mem _ '?' (qm_not_mem_rest0 host path port hall hpo hpa)]
    simp only [hsuf, Bool.false_eq_true, false_and, if_false]
    rw [if_neg (by simp)]
    rw [parseAfterQuery_shaped _ host path port
      (stringsToLower_ne_nil sch (schemeOK_ne_nil sch hs)) hh hpo hpa]
    rfl
  · obtain ⟨hqne, hqall⟩ := queryOK_parts qs hq
    rcases qs with _ | ⟨q0, qt⟩
    · exact absurd rfl hqne
    rw [show host ++ (portPart port ++ (path ++ optPart '?' (some (q0 :: qt)))) =
      host ++ (portPart port ++ path) ++ '?' :: q0 :: qt by
        simp [optPart, List.append_assoc]]
    rw [show ('/' : Char) :: '/' :: (host ++ (portPart port ++ path) ++
        '?' :: q0 :: qt) =
      ('/' :: '/' :: (host ++ (portPart port ++ path))) ++ '?' :: q0 :: qt
      from rfl]
    have hcont : (('/' :: '/' :: (host ++ (portPart port ++ path))) ++
        '?' :: q0 :: qt).dropLast.contains '?' = true := by
      rw [dropLast_append_cons_cons]
      exact List.elem_eq_true_of_mem
        (List.mem_append_right _ (List.mem_cons_self _ _))
    rw [stringsCut_append _ _ '?' (qm_not_mem_rest0 host path port hall hpo hpa)]
    simp only [hcont, eq_self_iff_true, not_true, and_false, if_false]
    rw [if_neg (by simp)]
    rw [parseAfterQuery_shaped _ host path port
      (stringsToLower_ne_nil sch (schemeOK_ne_nil sch hs)) hh hpo hpa]
    rfl

theorem Parse_buildURLStr (sch host path : GoStr) (port q f : Option GoStr)
    (hs : schemeOK sch = true) (hh : hostOK host = true)
    (hpo : portOK port = true) (hpa : pathOK path = true)
    (hq : queryOK q = true) (hf : fragOK f = true) :
    Parse (buildURLStr sch host port path q f) =
      some (shapedURL sch host port path q f) := by
  have hall := (hostOK_parts host hh).2
  rw [buildURLStr_eq]
  unfold Parse
  rcases f with _ | fs
  · rw [show optPart '#' (none : Option GoStr) = [] from rfl, List.append_nil]
    rw [stringsCut_not_mem _ '#' (fun hc =>
      (preF_char_facts sch host path port q hs hall hpo hpa hq '#' hc).1 rfl)]
    dsimp only
    rw [parseRaw_shaped sch host path port q hs hh hpo hpa hq]
    rfl
  · obtain ⟨hfne, hfall⟩ := fragOK_parts fs hf
    rw [show optPart '#' (some fs) = '#' :: fs from rfl]
    rw [stringsCut_append _ _ '#' (fun hc =>
      (preF_char_facts sch host path port q hs hall hpo hpa hq '#' hc).1 rfl)]
    dsimp only
    rw [parseRaw_shaped sch host path port q hs hh hpo hpa hq]
    dsimp only [Option.bind]
    rw [if_neg hfne]
    rw [setFragment_plain _ fs hfall]
    rfl

/-! ### The OK predicates are closed under lower-casing and slash-trimming -/

theorem pathOK_all (path : GoStr) (hpa : pathOK path = true) :
    path.all pathChar = true := by
  rcases pathOK_cases path hpa with he | ⟨pt, he, hall⟩
  · subst he; rfl
  · exact hall

theorem pathOK_ne_star (path : GoStr) (hpa : pathOK path = true) :
    path ≠ "*".toList := by
  rcases pathOK_cases path hpa with he | ⟨pt, he, _⟩
  · subst he; simp
  · subst he
    intro hx
    simp only [show ("*".toList : GoStr) = ['*'] from rfl,
      List.cons.injEq] at hx
    exact absurd hx.1 (by decide)

theorem pathOK_head (path : GoStr) (hpa : pathOK path = true) :
    path = [] ∨ path.head? = some '/' := by
  rcases pathOK_cases path hpa with he | ⟨pt, he, _⟩
  · exact Or.inl he
  · subst he; exact Or.inr rfl

theorem isUpper_of_range (c : Char) (h : 65 ≤ c.toNat ∧ c.toNat ≤ 90) :
    isUpperAlpha c = true := by
  rw [isUpperAlpha]
  exact decide_eq_true (by exact_mod_cast h)

theorem schemeChar_lowerChar (c : Char) (h : schemeChar c = true) :
    schemeChar (lowerChar c) = true := by
  by_cases hu : 65 ≤ c.toNat ∧ c.toNat ≤ 90
  · rw [schemeChar, decide_eq_true_eq]
    exact Or.inl (isLowerAlpha_lowerChar c (Or.inr (isUpper_of_range c hu)))
  · rw [lowerChar_eq_self_of_not_upper c hu]; exact h

theorem pathChar_lowerChar (c : Char) (h : pathChar c = true) :
    pathChar (lowerChar c) = true := by
  by_cases hu : 65 ≤ c.toNat ∧ c.toNat ≤ 90
  · rw [pathChar, decide_eq_true_eq]
    exact Or.inl (isLowerAlpha_lowerChar c (Or.inr (isUpper_of_range c hu)))
  · rw [lowerChar_eq_self_of_not_upper c hu]; exact h

theorem fragChar_lowerChar (c : Char) (h : fragChar c = true) :
    fragChar (lowerChar c) = true := by
  by_cases hu : 65 ≤ c.toNat ∧ c.toNat ≤ 90
  · rw [fragChar, decide_eq_true_eq]
    exact Or.inl (isLowerAlpha_lowerChar c (Or.inr (isUpper_of_range c hu)))
  · rw [lowerChar_eq_self_of_not_upper c hu]; exact h

theorem queryChar_lowerChar (c : Char) (h : queryChar c = true) :
    queryChar (lowerChar c) = true := by
  by_cases hu : 65 ≤ c.toNat ∧ c.toNat ≤ 90
  · have ht := lowerChar_toNat_upper c hu
    rw [queryChar, decide_eq_true_eq]
    refine ⟨char_ne_of_toNat _ _ ?_, ?_, ?_⟩
    · simp only [show ('#').toNat = 35 from rfl]; omega
    · rw [decide_eq_true_eq]; omega
    · omega
  · rw [lowerChar_eq_self_of_not_upper c hu]; exact h

theorem schemeOK_toLower (sch : GoStr) (hs : schemeOK sch = true) :
    schemeOK (stringsToLower sch) = true := by
  rcases sch with _ | ⟨a, as⟩
  · exact hs
  rw [schemeOK, decide_eq_true_eq] at hs
  rw [stringsToLower_cons, schemeOK, decide_eq_true_eq]
  refine ⟨Or.inl (isLowerAlpha_lowerChar a hs.1), ?_⟩
  rw [List.all_eq_true]
  intro c hc
  rw [stringsToLower] at hc
  obtain ⟨d, hd, he⟩ := List.mem_map.mp hc
  rw [← he]
  exact schemeChar_lowerChar d (List.all_eq_true.mp hs.2 d hd)

theorem pathOK_toLower (path : GoStr) (hpa : pathOK path = true) :
    pathOK (stringsToLower path) = true := by
  rcases pathOK_cases path hpa with he | ⟨pt, he, hall⟩
  · subst he; rfl
  subst he
  rw [stringsToLower_cons, pathOK, decide_eq_true_eq]
  refine Or.inr ⟨by rw [show lowerChar '/' = '/' from rfl]; rfl, ?_⟩
  rw [List.all_eq_true]
  intro c hc
  rcases List.mem_cons.mp hc with he' | hc'
  · subst he'
    exact pathChar_lowerChar '/' (by decide)
  · rw [stringsToLower] at hc'
    obtain ⟨d, hd, he'⟩ := List.mem_map.mp hc'
    rw [← he']
    exact pathChar_lowerChar d
      (List.all_eq_true.mp hall d (List.mem_cons_of_mem _ hd))

theorem queryOK_map_toLower (q : Option GoStr) (hq : queryOK q = true) :
    queryOK (q.map stringsToLower) = true := by
  rcases q with _ | qs
  · rfl
  obtain ⟨hne, hall⟩ := queryOK_parts qs hq
  rw [show Option.map stringsToLower (some qs) = some (stringsToLower qs)
    from rfl, queryOK, decide_eq_true_eq]
  refine ⟨stringsToLower_ne_nil qs hne, ?_⟩
  rw [List.all_eq_true]
  intro c hc
  rw [stringsToLower] at hc
  obtain ⟨d, hd, he⟩ := List.mem_map.mp hc
  rw [← he]
  exact queryChar_lowerChar d (List.all_eq_true.mp hall d hd)

theorem fragOK_map_toLower (f : Option GoStr) (hf : fragOK f = true) :
    fragOK (f.map stringsToLower) = true := by
  rcases f with _ | fs
  · rfl
  obtain ⟨hne, hall⟩ := fragOK_parts fs hf
  rw [show Option.map stringsToLower (some fs) = some (stringsToLower fs)
    from rfl, fragOK, decide_eq_true_eq]
  refine ⟨stringsToLower_ne_nil fs hne, ?_⟩
  rw [List.all_eq_true]
  intro c hc
  rw [stringsToLower] at hc
  obtain ⟨d, hd, he⟩ := List.mem_map.mp hc
  rw [← he]
  exact fragChar_lowerChar d (List.all_eq_true.mp hall d hd)

theorem specTrimPath_parts (path : GoStr) (hpa : pathOK path = true) :
    (specTrimPath path).head? = some '/' ∧
      (specTrimPath path).all pathChar = true := by
  unfold specTrimPath
  by_cases ht : stringsTrimRight path '/' = []
  · rw [if_pos ht]
    exact ⟨rfl, by decide⟩
  · rw [if_neg ht]
    constructor
    · rw [stringsTrimRight_head path '/' ht]
      rcases pathOK_cases path hpa with he | ⟨pt, he, _⟩
      · subst he; exact absurd rfl ht
      · subst he; rfl
    · rw [List.all_eq_true]
      intro c hc
      exact pathOK_mem path hpa c (stringsTrimRight_mem path '/' c hc)

theorem pathOK_specTrim (path : GoStr) (hpa : pathOK path = true) :
    pathOK (specTrimPath path) = true := by
  obtain ⟨hh, hall⟩ := specTrimPath_parts path hpa
  rw [pathOK, decide_eq_true_eq]
  exact Or.inr ⟨hh, hall⟩

theorem specTrimPath_ne_nil (path : GoStr) : specTrimPath path ≠ [] := by
  unfold specTrimPath
  by_cases ht : stringsTrimRight path '/' = []
  · rw [if_pos ht]; exact by decide
  · rw [if_neg ht]; exact ht

theorem stringsTrimRight_toLower (p : GoStr) :
    stringsTrimRight (stringsToLower p) '/' =
      stringsToLower (stringsTrimRight p '/') := by
  unfold stringsTrimRight stringsToLower
  rw [← List.map_reverse, List.dropWhile_map, List.map_reverse]
  have hfe : ((fun d => decide (d = '/')) ∘ lowerChar) =
      fun d => decide (d = '/') := by
    funext d
    by_cases hd : d = '/'
    · subst hd; rfl
    · simp only [Function.comp_apply]
      rw [decide_eq_false hd, decide_eq_false
        (lowerChar_ne_of_notletter d '/' (by decide) hd)]
  rw [show (fun d => decide (d = '/')) ∘ lowerChar =
    ((fun d => decide (d = '/')) ∘ lowerChar) from rfl, hfe]

theorem specTrimPath_toLower (p : GoStr) :
    specTrimPath (stringsToLower p) = stringsToLower (specTrimPath p) := by
  unfold specTrimPath
  rw [stringsTrimRight_toLower]
  by_cases ht : stringsTrimRight p '/' = []
  · rw [ht]
    decide
  · rw [if_neg (by
      intro hx
      exact ht (by
        rcases hy : stringsTrimRight p '/' with _ | ⟨x, xs⟩
        · rfl
        · rw [hy] at hx
          exact absurd hx (by rw [stringsToLower_cons]; simp))), if_neg ht]

theorem stringsToLower_www : stringsToLower wwwByfood = wwwByfood := by decide

/-! ### Serializing a plain record reproduces the shaped string -/

theorem escapedPath_of (u : URL) (hr : u.rawPath = [])
    (hstar : u.path ≠ "*".toList)
    (hesc : escape u.path encodePath = u.path) : escapedPath u = u.path := by
  unfold escapedPath
  rw [hr]
  rw [if_neg (by simp)]
  rw [if_neg hstar, hesc]

theorem escapedFragment_of (u : URL) (hr : u.rawFragment = [])
    (hesc : escape u.fragment encodeFragment = u.fragment) :
    escapedFragment u = u.fragment := by
  unfold escapedFragment
  rw [hr]
  rw [if_neg (by simp), hesc]

theorem queryFragPart_plain (u : URL) (q f : Option GoStr)
    (hfq : u.forceQuery = false) (hrq : u.rawQuery = q.getD [])
    (hfr : u.fragment = f.getD []) (hrf : u.rawFragment = [])
    (hq : queryOK q = true) (hf : fragOK f = true)
    (hesc : ∀ fs, f = some fs → escape fs encodeFragment = fs) :
    queryFragPart u = optPart '?' q ++ optPart '#' f := by
  unfold queryFragPart
  rw [hfq, hrq, hfr]
  rcases q with _ | qs <;> rcases f with _ | fs
  · rw [if_neg (by simp), if_neg (by simp)]
    rfl
  · rw [if_neg (by simp), if_pos (by
      show (some fs).getD [] ≠ []
      exact (fragOK_parts fs hf).1)]
    rw [escapedFragment_of u hrf (by rw [hfr]; exact hesc fs rfl), hfr]
    simp [optPart, Option.getD]
  · rw [if_pos (Or.inr (by
      show (some qs).getD [] ≠ []
      exact (queryOK_parts qs hq).1)), if_neg (by simp)]
    simp [optPart, Option.getD]
  · rw [if_pos (Or.inr (by
      show (some qs).getD [] ≠ []
      exact (queryOK_parts qs hq).1)), if_pos (by
      show (some fs).getD [] ≠ []
      exact (fragOK_parts fs hf).1)]
    rw [escapedFragment_of u hrf (by rw [hfr]; exact hesc fs rfl), hfr]
    simp [optPart, Option.getD]

theorem urlString_plain (sc hp pa : GoStr) (q f : Option GoStr)
    (hsc : sc ≠ []) (hhp : hp ≠ [])
    (hescH : escape hp encodeHost = hp)
    (hstar : pa ≠ "*".toList) (hescP : escape pa encodePath = pa)
    (hhead : pa = [] ∨ pa.head? = some '/')
    (hq : queryOK q = true) (hf : fragOK f = true)
    (hescF : ∀ fs, f = some fs → escape fs encodeFragment = fs) :
    urlString { scheme := sc, opq := [], user := none, host := hp,
                path := pa, rawPath := [], omitHost := false,
                forceQuery := false, rawQuery := q.getD [],
                fragment := f.getD [], rawFragment := [] } =
      sc ++ ':' :: '/' :: '/' ::
        (hp ++ (pa ++ (optPart '?' q ++ optPart '#' f))) := by
  have h1 : escapedPath
      { scheme := sc, opq := [], user := none, host := hp,
        path := pa, rawPath := [], omitHost := false,
        forceQuery := false, rawQuery := q.getD [],
        fragment := f.getD [], rawFragment := [] } = pa :=
    escapedPath_of _ rfl hstar hescP
  have h2 : queryFragPart
      { scheme := sc, opq := [], user := none, host := hp,
        path := pa, rawPath := [], omitHost := false,
        forceQuery := false, rawQuery := q.getD [],
        fragment := f.getD [], rawFragment := [] } =
      optPart '?' q ++ optPart '#' f :=
    queryFragPart_plain _ q f rfl rfl rfl rfl hq hf hescF
  unfold urlString
  dsimp only
  rw [h1, h2]
  rw [if_neg (by simp)]
  rw [if_pos hsc]
  rw [if_pos (Or.inl hsc)]
  rw [if_neg (by simp)]
  rw [if_pos (Or.inl hhp)]
  rw [if_pos hhp, hescH]
  rw [if_neg (by
    rcases hhead with he | he
    · exact fun h => h.1 he
    · exact fun h => h.2.1 he)]
  rw [if_neg (by simp)]
  simp [List.append_assoc, show ("//".toList : GoStr) = ['/', '/'] from rfl]

/-! ### Closed forms of the three operations on plain-shaped URLs -/

theorem processCanonical_shaped (sch host path : GoStr) (port q f : Option GoStr)
    (hs : schemeOK sch = true) (hh : hostOK host = true)
    (hpo : portOK port = true) (hpa : pathOK path = true)
    (hf : fragOK f = true) :
    theUseCase.processCanonical (shapedURL sch host port path q f) =
      buildURLStr (stringsToLower sch) host port (specTrimPath path) none f := by
  obtain ⟨hne, hall⟩ := hostOK_parts host hh
  obtain ⟨hh1, hall1⟩ := specTrimPath_parts path hpa
  have hx := urlString_plain (stringsToLower sch) (host ++ portPart port)
    (specTrimPath path) none f
    (stringsToLower_ne_nil sch (schemeOK_ne_nil sch hs))
    (by intro he; exact hne (List.append_eq_nil.mp he).1)
    (escape_hostport host port hall hpo)
    (by intro he; rw [he] at hh1; exact absurd hh1 (by decide))
    (escape_path_all _ hall1)
    (Or.inr hh1)
    rfl hf
    (fun fs hef => escape_frag_all fs (fragOK_parts fs (hef ▸ hf)).2)
  refine Eq.trans (Eq.trans ?_ hx) ?_
  · rfl
  · simp [buildURLStr, List.append_assoc, optPart,
      show ("//".toList : GoStr) = ['/', '/'] from rfl]

theorem processRedirection_shaped (sch host path : GoStr)
    (port q f : Option GoStr)
    (hs : schemeOK sch = true) (hh : hostOK host = true)
    (hpo : portOK port = true) (hpa : pathOK path = true)
    (hq : queryOK q = true) (hf : fragOK f = true) :
    theUseCase.processRedirection (shapedURL sch host port path q f) =
      buildURLStr (stringsToLower sch) wwwByfood none (stringsToLower path)
        (q.map stringsToLower) (f.map stringsToLower) := by
  have hx := urlString_plain (stringsToLower sch) wwwByfood path q f
    (stringsToLower_ne_nil sch (schemeOK_ne_nil sch hs))
    (by decide)
    (by decide)
    (pathOK_ne_star path hpa)
    (escape_path_all path (pathOK_all path hpa))
    (pathOK_head path hpa) hq hf
    (fun fs hef => escape_frag_all fs (fragOK_parts fs (hef ▸ hf)).2)
  refine Eq.trans (Eq.trans ?_ (congrArg stringsToLower hx)) ?_
  · rfl
  · rcases q with _ | qs <;> rcases f with _ | fs <;>
      simp [stringsToLower_append, stringsToLower_cons, stringsToLower_idem,
        stringsToLower_www, buildURLStr, optPart, portPart,
        List.append_assoc,
        show lowerChar ':' = ':' by decide,
        show lowerChar '/' = '/' by decide,
        show lowerChar '?' = '?' by decide,
        show lowerChar '#' = '#' by decide,
        show ("//".toList : GoStr) = ['/', '/'] from rfl]

theorem processAll_shaped (sch host path : GoStr) (port q f : Option GoStr)
    (hs : schemeOK sch = true) (hh : hostOK host = true)
    (hpo : portOK port = true) (hpa : pathOK path = true)
    (hq : queryOK q = true) (hf : fragOK f = true) :
    theUseCase.processAll (shapedURL sch host port path q f) =
      some (buildURLStr (stringsToLower sch) wwwByfood none
        (stringsToLower (specTrimPath path)) none (f.map stringsToLower)) := by
  unfold URLUseCase.processAll
  dsimp only
  rw [processCanonical_shaped sch host path port q f hs hh hpo hpa hf]
  rw [Parse_buildURLStr (stringsToLower sch) host (specTrimPath path) port
    none f (schemeOK_toLower sch hs) hh hpo (pathOK_specTrim path hpa) rfl hf]
  dsimp only
  rw [processRedirection_shaped (stringsToLower sch) host (specTrimPath path)
    port none f (schemeOK_toLower sch hs) hh hpo (pathOK_specTrim path hpa)
    rfl hf]
  rw [stringsToLower_idem]
  rfl

/-- C4 witness: the ForceQuery input https://h/b?, whose canonical output
keeps a bare trailing '?'. -/
theorem C4_witness :
    ∃ base fragPart,
      theUseCase.processCanonical
          ⟨"https".toList, [], none, "h".toList, "/b".toList, [], false,
            true, [], [], []⟩ =
        base ++ ((if (⟨"https".toList, [], none, "h".toList, "/b".toList, [],
            false, true, [], [], []⟩ : URL).forceQuery then ['?'] else []) ++
          fragPart) ∧
      '?' ∉ base ∧
      (fragPart = [] ∨ ∃ ff, fragPart = '#' :: ff) :=
  C4_canonical_amended ("https://h/b?".toList) _ (by rfl)

theorem buildURLStr_ne_nil (sch host path : GoStr) (port q f : Option GoStr) :
    buildURLStr sch host port path q f ≠ [] := by
  rw [buildURLStr_eq]
  intro he
  obtain ⟨h1, -⟩ := List.append_eq_nil.mp he
  obtain ⟨-, h2⟩ := List.append_eq_nil.mp h1
  exact List.cons_ne_nil _ _ h2

theorem map_toLower_idem (q : Option GoStr) :
    (q.map stringsToLower).map stringsToLower = q.map stringsToLower := by
  rcases q with _ | qs
  · rfl
  · show some (stringsToLower (stringsToLower qs)) = some (stringsToLower qs)
    rw [stringsToLower_idem]

/-- C1, amended.  processCanonical is exactly: discard the raw query, apply
the spec's trailing-slash rule to the path, and re-serialize (so the
fragment is kept); and on every plain-shaped url
scheme://host[:port]path[?query][#fragment] the canonical operation returns
the same url with the query part removed and the path slash-trimmed, the
scheme preserved up to ASCII lower-casing and host, port, path casing and
fragment preserved exactly. -/
theorem C1_canonical_amended (sch host path : GoStr) (port q f : Option GoStr)
    (hs : schemeOK sch = true) (hh : hostOK host = true)
    (hpo : portOK port = true) (hpa : pathOK path = true)
    (hq : queryOK q = true) (hf : fragOK f = true) :
    (∀ u : URL, theUseCase.processCanonical u =
        urlString { u with rawQuery := [], path := specTrimPath u.path }) ∧
    theUseCase.ProcessURL ⟨buildURLStr sch host port path q f,
        "canonical".toList⟩ =
      some (.ok ⟨buildURLStr (stringsToLower sch) host port
        (specTrimPath path) none f⟩) := by
  constructor
  · intro u; rfl
  · rw [processURL_canonical_eq theUseCase _ (shapedURL sch host port path q f)
      (buildURLStr_ne_nil sch host path port q f)
      (Parse_buildURLStr sch host path port q f hs hh hpo hpa hq hf)]
    rw [processCanonical_shaped sch host path port q f hs hh hpo hpa hf]

/-- C1 witness: the spec's first scenario,
https://BYFOOD.com/food-EXPeriences?query=abc/ under canonical. -/
theorem C1_witness :
    theUseCase.ProcessURL
        ⟨"https://BYFOOD.com/food-EXPeriences?query=abc/".toList,
          "canonical".toList⟩ =
      some (.ok ⟨"https://BYFOOD.com/food-EXPeriences".toList⟩) := by
  have h := (C1_canonical_amended "https".toList "BYFOOD.com".toList
    "/food-EXPeriences".toList none (some ("query=abc/".toList)) none
    (by decide) (by decide) (by decide) (by decide) (by decide) (by decide)).2
  rw [show buildURLStr "https".toList "BYFOOD.com".toList none
      "/food-EXPeriences".toList (some ("query=abc/".toList)) none =
      "https://BYFOOD.com/food-EXPeriences?query=abc/".toList by decide] at h
  rw [show buildURLStr (stringsToLower ("https".toList)) "BYFOOD.com".toList
      none (specTrimPath ("/food-EXPeriences".toList)) none none =
      "https://BYFOOD.com/food-EXPeriences".toList by decide] at h
  exact h

/-- C5, amended.  On every plain-shaped url
scheme://host[:port]path[?query][#fragment] whose query bytes are ASCII
(every other plain component class is ASCII by construction, and on ASCII
strings Go's strings.ToLower is exactly the per-byte ASCII lower-casing)
the redirection operation replaces the whole authority by www.byfood.com
and lower-cases everything, preserving the query content, the fragment
content and the path (with its trailing slashes) exactly up to ASCII
lower-casing — it strips nothing. -/
theorem C5_redirection_amended (sch host path : GoStr) (port q f : Option GoStr)
    (hs : schemeOK sch = true) (hh : hostOK host = true)
    (hpo : portOK port = true) (hpa : pathOK path = true)
    (hq : queryOK q = true) (_hqa : asciiQuery q = true)
    (hf : fragOK f = true) :
    theUseCase.ProcessURL ⟨buildURLStr sch host port path q f,
        "redirection".toList⟩ =
      some (.ok ⟨buildURLStr (stringsToLower sch) wwwByfood none
        (stringsToLower path) (q.map stringsToLower)
        (f.map stringsToLower)⟩) := by
  rw [processURL_redirection_eq theUseCase _ (shapedURL sch host port path q f)
    (buildURLStr_ne_nil sch host path port q f)
    (Parse_buildURLStr sch host path port q f hs hh hpo hpa hq hf)]
  rw [processRedirection_shaped sch host path port q f hs hh hpo hpa hq hf]

/-- C5 witness: the spec's second scenario,
https://BYFOOD.com/food-EXPeriences?query=abc/ under redirection. -/
theorem C5_witness :
    theUseCase.ProcessURL
        ⟨"https://BYFOOD.com/food-EXPeriences?query=abc/".toList,
          "redirection".toList⟩ =
      some (.ok ⟨"https://www.byfood.com/food-experiences?query=abc/".toList⟩) := by
  have h := C5_redirection_amended "https".toList "BYFOOD.com".toList
    "/food-EXPeriences".toList none (some ("query=abc/".toList)) none
    (by decide) (by decide) (by decide) (by decide) (by decide) (by decide)
    (by decide)
  rw [show buildURLStr "https".toList "BYFOOD.com".toList none
      "/food-EXPeriences".toList (some ("query=abc/".toList)) none =
      "https://BYFOOD.com/food-EXPeriences?query=abc/".toList by decide] at h
  rw [show buildURLStr (stringsToLower ("https".toList)) wwwByfood none
      (stringsToLower ("/food-EXPeriences".toList))
      ((some ("query=abc/".toList)).map stringsToLower)
      ((none : Option GoStr).map stringsToLower) =
      "https://www.byfood.com/food-experiences?query=abc/".toList
    by decide] at h
  exact h

/-- C7, amended.  On every plain-shaped url
scheme://host[:port]path[?query][#fragment] each of the canonical,
redirection and all operations is idempotent: applying the operation to
its own output returns that output unchanged. -/
theorem C7_idempotent_amended (sch host path : GoStr) (port q f : Option GoStr)
    (hs : schemeOK sch = true) (hh : hostOK host = true)
    (hpo : portOK port = true) (hpa : pathOK path = true)
    (hq : queryOK q = true) (hf : fragOK f = true) :
    ∃ oc orr oa : GoStr,
      (theUseCase.ProcessURL ⟨buildURLStr sch host port path q f,
          "canonical".toList⟩ = some (.ok ⟨oc⟩) ∧
        theUseCase.ProcessURL ⟨oc, "canonical".toList⟩ = some (.ok ⟨oc⟩)) ∧
      (theUseCase.ProcessURL ⟨buildURLStr sch host port path q f,
          "redirection".toList⟩ = some (.ok ⟨orr⟩) ∧
        theUseCase.ProcessURL ⟨orr, "redirection".toList⟩ =
          some (.ok ⟨orr⟩)) ∧
      (theUseCase.ProcessURL ⟨buildURLStr sch host port path q f,
          "all".toList⟩ = some (.ok ⟨oa⟩) ∧
        theUseCase.ProcessURL ⟨oa, "all".toList⟩ = some (.ok ⟨oa⟩)) := by
  refine ⟨buildURLStr (stringsToLower sch) host port (specTrimPath path)
      none f,
    buildURLStr (stringsToLower sch) wwwByfood none (stringsToLower path)
      (q.map stringsToLower) (f.map stringsToLower),
    buildURLStr (stringsToLower sch) wwwByfood none
      (stringsToLower (specTrimPath path)) none (f.map stringsToLower),
    ⟨?_, ?_⟩, ⟨?_, ?_⟩, ⟨?_, ?_⟩⟩
  · rw [processURL_canonical_eq theUseCase _ (shapedURL sch host port path q f)
      (buildURLStr_ne_nil sch host path port q f)
      (Parse_buildURLStr sch host path port q f hs hh hpo hpa hq hf)]
    rw [processCanonical_shaped sch host path port q f hs hh hpo hpa hf]
  · rw [processURL_canonical_eq theUseCase _
      (shapedURL (stringsToLower sch) host port (specTrimPath path) none f)
      (buildURLStr_ne_nil _ _ _ _ _ _)
      (Parse_buildURLStr _ host (specTrimPath path) port none f
        (schemeOK_toLower sch hs) hh hpo (pathOK_specTrim path hpa) rfl hf)]
    rw [processCanonical_shaped _ host (specTrimPath path) port none f
      (schemeOK_toLower sch hs) hh hpo (pathOK_specTrim path hpa) hf]
    rw [stringsToLower_idem, specTrimPath_idem]
  · rw [processURL_redirection_eq theUseCase _
      (shapedURL sch host port path q f)
      (buildURLStr_ne_nil sch host path port q f)
      (Parse_buildURLStr sch host path port q f hs hh hpo hpa hq hf)]
    rw [processRedirection_shaped sch host path port q f hs hh hpo hpa hq hf]
  · rw [processURL_redirection_eq theUseCase _
      (shapedURL (stringsToLower sch) wwwByfood none (stringsToLower path)
        (q.map stringsToLower) (f.map stringsToLower))
      (buildURLStr_ne_nil _ _ _ _ _ _)
      (Parse_buildURLStr _ wwwByfood (stringsToLower path) none
        (q.map stringsToLower) (f.map stringsToLower)
        (schemeOK_toLower sch hs) (by decide) rfl (pathOK_toLower path hpa)
        (queryOK_map_toLower q hq) (fragOK_map_toLower f hf))]
    rw [processRedirection_shaped _ wwwByfood (stringsToLower path) none
      (q.map stringsToLower) (f.map stringsToLower)
      (schemeOK_toLower sch hs) (by decide) rfl (pathOK_toLower path hpa)
      (queryOK_map_toLower q hq) (fragOK_map_toLower f hf)]
    simp only [stringsToLower_idem, map_toLower_idem]
  · rw [processURL_all_eq theUseCase _ (shapedURL sch host port path q f)
      (buildURLStr_ne_nil sch host path port q f)
      (Parse_buildURLStr sch host path port q f hs hh hpo hpa hq hf)]
    rw [processAll_shaped sch host path port q f hs hh hpo hpa hq hf]
    rfl
  · rw [processURL_all_eq theUseCase _
      (shapedURL (stringsToLower sch) wwwByfood none
        (stringsToLower (specTrimPath path)) none (f.map stringsToLower))
      (buildURLStr_ne_nil _ _ _ _ _ _)
      (Parse_buildURLStr _ wwwByfood (stringsToLower (specTrimPath path))
        none none (f.map stringsToLower) (schemeOK_toLower sch hs)
        (by decide) rfl (pathOK_toLower _ (pathOK_specTrim path hpa)) rfl
        (fragOK_map_toLower f hf))]
    rw [processAll_shaped _ wwwByfood (stringsToLower (specTrimPath path))
      none none (f.map stringsToLower) (schemeOK_toLower sch hs)
      (by decide) rfl (pathOK_toLower _ (pathOK_specTrim path hpa)) rfl
      (fragOK_map_toLower f hf)]
    simp only [specTrimPath_toLower, specTrimPath_idem, stringsToLower_idem,
      map_toLower_idem]
    rfl

/-- C7 witness: all three operations are idempotent on the spec's example
url https://BYFOOD.com/food-EXPeriences?query=abc/. -/
theorem C7_witness :
    ∃ oc orr oa : GoStr,
      (theUseCase.ProcessURL
          ⟨"https://BYFOOD.com/food-EXPeriences?query=abc/".toList,
            "canonical".toList⟩ = some (.ok ⟨oc⟩) ∧
        theUseCase.ProcessURL ⟨oc, "canonical".toList⟩ = some (.ok ⟨oc⟩)) ∧
      (theUseCase.ProcessURL
          ⟨"https://BYFOOD.com/food-EXPeriences?query=abc/".toList,
            "redirection".toList⟩ = some (.ok ⟨orr⟩) ∧
        theUseCase.ProcessURL ⟨orr, "redirection".toList⟩ =
          some (.ok ⟨orr⟩)) ∧
      (theUseCase.ProcessURL
          ⟨"https://BYFOOD.com/food-EXPeriences?query=abc/".toList,
            "all".toList⟩ = some (.ok ⟨oa⟩) ∧
        theUseCase.ProcessURL ⟨oa, "all".toList⟩ = some (.ok ⟨oa⟩)) := by
  have h := C7_idempotent_amended "https".toList "BYFOOD.com".toList
    "/food-EXPeriences".toList none (some ("query=abc/".toList)) none
    (by decide) (by decide) (by decide) (by decide) (by decide) (by decide)
  rw [show buildURLStr "https".toList "BYFOOD.com".toList none
      "/food-EXPeriences".toList (some ("query=abc/".toList)) none =
      "https://BYFOOD.com/food-EXPeriences?query=abc/".toList by decide] at h
  exact h

/-- C9, amended.  On every plain-shaped url
scheme://host[:port]path[?query][#fragment] the canonical output re-parses
successfully, so the discarded error inside processAll is nil there and the
all operation terminates normally, returning the redirection of the
re-parsed canonical URL. -/
theorem C9_all_amended (sch host path : GoStr) (port q f : Option GoStr)
    (hs : schemeOK sch = true) (hh : hostOK host = true)
    (hpo : portOK port = true) (hpa : pathOK path = true)
    (hq : queryOK q = true) (hf : fragOK f = true) :
    ∃ u u2 : URL,
      Parse (buildURLStr sch host port path q f) = some u ∧
      Parse (theUseCase.processCanonical u) = some u2 ∧
      theUseCase.ProcessURL ⟨buildURLStr sch host port path q f,
          "all".toList⟩ =
        some (.ok ⟨theUseCase.processRedirection u2⟩) := by
  refine ⟨shapedURL sch host port path q f,
    shapedURL (stringsToLower sch) host port (specTrimPath path) none f,
    Parse_buildURLStr sch host path port q f hs hh hpo hpa hq hf, ?_, ?_⟩
  · rw [processCanonical_shaped sch host path port q f hs hh hpo hpa hf]
    exact Parse_buildURLStr _ host (specTrimPath path) port none f
      (schemeOK_toLower sch hs) hh hpo (pathOK_specTrim path hpa) rfl hf
  · rw [processURL_all_eq theUseCase _ (shapedURL sch host port path q f)
      (buildURLStr_ne_nil sch host path port q f)
      (Parse_buildURLStr sch host path port q f hs hh hpo hpa hq hf)]
    rw [processAll_shaped sch host path port q f hs hh hpo hpa hq hf]
    rw [processRedirection_shaped _ host (specTrimPath path) port none f
      (schemeOK_toLower sch hs) hh hpo (pathOK_specTrim path hpa) rfl hf]
    simp only [stringsToLower_idem]
    rfl

/-- C9 witness: the all operation returns normally on the spec's example
url https://BYFOOD.com/food-EXPeriences?query=abc/, whose canonical output
re-parses successfully. -/
theorem C9_witness :
    ∃ u u2 : URL,
      Parse "https://BYFOOD.com/food-EXPeriences?query=abc/".toList =
        some u ∧
      Parse (theUseCase.processCanonical u) = some u2 ∧
      theUseCase.ProcessURL
          ⟨"https://BYFOOD.com/food-EXPeriences?query=abc/".toList,
            "all".toList⟩ =
        some (.ok ⟨theUseCase.processRedirection u2⟩) := by
  have h := C9_all_amended "https".toList "BYFOOD.com".toList
    "/food-EXPeriences".toList none (some ("query=abc/".toList)) none
    (by decide) (by decide) (by decide) (by decide) (by decide) (by decide)
  rw [show buildURLStr "https".toList "BYFOOD.com".toList none
      "/food-EXPeriences".toList (some ("query=abc/".toList)) none =
      "https://BYFOOD.com/food-EXPeriences?query=abc/".toList by decide] at h
  exact h

end Byfood
